import Mathlib

/-!
AVLtrees: a shallow embedding of `src/AVLtrees.h` and `src/AVLtrees.cpp`

The C++ classes `binaryTree`, `BST` and `balancedBST` own a tree of heap nodes
(`TreeNode { data; left; right }`) through a single `root` pointer.  Every node
is reachable from exactly one parent slot, so a pointer to a node is modelled by
the subtree it points at, `nullptr` by `TreeNode.nil`, and an in-place update of
a child link by rebuilding the path from the root to that link.

* Loops that drive a `std::stack` are modelled as they are written: one
  iteration per unfolding, the stack as a list whose head is `stack.top()`.
  Their fuel is the number of nodes of the tree, and the file proves that this
  many iterations always empty the stack.
* A dereference of a null pointer is undefined behaviour in C++; functions that
  can perform one return `Option`, with `none` standing for the fault.
* `elemType` is `char`; keys are modelled by `Int`, which contains the range of
  both the signed and the unsigned 8-bit `char`.  All concrete inputs below use
  ASCII codes (`'a'` is 97).
-/

namespace AVLtrees

/-- The key type, `typedef char elemType`. -/
abbrev elemType := Int

/-- A (possibly null) pointer to a `binaryTree::TreeNode`. -/
inductive TreeNode where
  | nil : TreeNode
  | node (left : TreeNode) (data : elemType) (right : TreeNode) : TreeNode
  deriving DecidableEq

open TreeNode

/-! Specification-side vocabulary (not taken from the source). -/

/-- Number of nodes, by structural recursion. -/
def nodes : TreeNode → Nat
  | nil => 0
  | node l _ r => nodes l + 1 + nodes r

/-- Keys in left-node-right order, by structural recursion. -/
def inorder : TreeNode → List elemType
  | nil => []
  | node l d r => inorder l ++ d :: inorder r

/-- Textbook height: `-1` for the empty tree, `0` for a leaf. -/
def textbookHeight : TreeNode → Int
  | nil => -1
  | node l _ r => 1 + max (textbookHeight l) (textbookHeight r)

/-- Every key of the tree satisfies `p`. -/
def allKeys (p : elemType → Prop) : TreeNode → Prop
  | nil => True
  | node l d r => allKeys p l ∧ p d ∧ allKeys p r

/-- BST order: left keys are smaller, right keys are greater, at every node. -/
def isBST : TreeNode → Prop
  | nil => True
  | node l d r => allKeys (fun x => x < d) l ∧ allKeys (fun x => d < x) r ∧ isBST l ∧ isBST r

/-- Some node of the tree holds `k`. -/
def holds (k : elemType) : TreeNode → Prop
  | nil => False
  | node l d r => holds k l ∨ k = d ∨ holds k r

/-- Keys in node-left-right order, by structural recursion. -/
def preorder : TreeNode → List elemType
  | nil => []
  | node l d r => d :: (preorder l ++ preorder r)

/-- Keys in left-right-node order, by structural recursion. -/
def postorder : TreeNode → List elemType
  | nil => []
  | node l d r => postorder l ++ (postorder r ++ [d])

/-- Number of levels of a tree: `0` for the empty tree, `1` for a leaf. -/
def depth : TreeNode → Nat
  | nil => 0
  | node l _ r => 1 + max (depth l) (depth r)

/-- Keys at distance `n` from the root, left to right. -/
def levelKeys : Nat → TreeNode → List elemType
  | _, nil => []
  | 0, node _ d _ => [d]
  | n + 1, node l _ r => levelKeys n l ++ levelKeys n r

/-- Keys by depth: all keys at depth 0, then all at depth 1, and so on, left
to right within each depth. -/
def levelsByDepth (t : TreeNode) : List elemType :=
  (List.range (depth t)).flatMap (fun n => levelKeys n t)

/-! Class `binaryTree`. -/

/-- `stack.push(p)` guarded by `if (p != nullptr)`. -/
def pushIfPresent (p : TreeNode) (stack : List TreeNode) : List TreeNode :=
  match p with
  | nil => stack
  | node l d r => node l d r :: stack

/-- The `while (!stack.empty())` loop of `binaryTree::size`.  Only present
nodes are ever pushed, so the clause for a popped `nil` is never reached; the
clause for fuel `0` is never reached from `size` (see `sizeLoop_eq`). -/
def sizeLoop : Nat → List TreeNode → Int → Int
  | 0, _, count => count
  | _ + 1, [], count => count
  | fuel + 1, nil :: stack, count => sizeLoop fuel stack (count + 1)
  | fuel + 1, node l _ r :: stack, count =>
    sizeLoop fuel (pushIfPresent r (pushIfPresent l stack)) (count + 1)

/-- `binaryTree::size(TreeNode* root)`. -/
def size (root : TreeNode) : Int :=
  match root with
  | nil => 0
  | node l d r => sizeLoop (nodes (node l d r)) [node l d r] 0

/-- `binaryTree::treeNodeCount()`. -/
def treeNodeCount (root : TreeNode) : Int := size root

/-- The `while (!stack.empty())` loop of `binaryTree::height`: `count` is
incremented once per popped node and `maxCount` follows it.  Only present
nodes are ever pushed, so the clause for a popped `nil` is never reached; the
clause for fuel `0` is never reached from `height` (see `heightLoop_eq`). -/
def heightLoop : Nat → List TreeNode → Int → Int → Int
  | 0, _, _, maxCount => maxCount
  | _ + 1, [], _, maxCount => maxCount
  | fuel + 1, nil :: stack, count, maxCount =>
    heightLoop fuel stack (count + 1) (if count + 1 > maxCount then count + 1 else maxCount)
  | fuel + 1, node l _ r :: stack, count, maxCount =>
    heightLoop fuel (pushIfPresent r (pushIfPresent l stack)) (count + 1)
      (if count + 1 > maxCount then count + 1 else maxCount)

/-- `binaryTree::height(TreeNode* root)`. -/
def height (root : TreeNode) : Int :=
  match root with
  | nil => -1
  | node l d r => heightLoop (nodes (node l d r)) [node l d r] (-1) (-1)

/-- `binaryTree::node_height(TreeNode* node)`. -/
def node_height (node : TreeNode) : Int := height node

/-- The inner `while (current != nullptr)` loop of `binaryTree::in_order`. -/
def descendLeft : TreeNode → List TreeNode → List TreeNode
  | nil, stack => stack
  | node l d r, stack => descendLeft l (node l d r :: stack)

/-- The outer loop of `binaryTree::in_order`; `out` collects what is printed.
After the inner loop the stack is not empty and its top is a present node, so
the first two clauses of the `match` are never reached (see `in_orderLoop_eq`). -/
def in_orderLoop : Nat → TreeNode → List TreeNode → List elemType → List elemType
  | 0, _, _, out => out
  | fuel + 1, current, stack, out =>
    if current = nil ∧ stack = [] then out
    else
      match descendLeft current stack with
      | [] => out
      | nil :: _ => out
      | node _ d r :: rest => in_orderLoop fuel r rest (out ++ [d])

/-- `binaryTree::in_order(TreeNode* root)`, as the sequence of keys printed. -/
def in_order (root : TreeNode) : List elemType :=
  match root with
  | nil => []
  | node l d r => in_orderLoop (nodes (node l d r)) (node l d r) [] []

/-- The largest-key walk `while (replacement->right != nullptr)` of
`binaryTree::deleteItem`: the key of the rightmost node, starting at a node
with left subtree `l`, key `d` and right subtree `r`. -/
def replacementData : TreeNode → elemType → TreeNode → elemType
  | _, d, nil => d
  | _, _, node rl rd rr => replacementData rl rd rr

/-- Unlinking the replacement node in `binaryTree::deleteItem`: its parent
slot receives `replacement->left`. -/
def unlinkReplacement : TreeNode → elemType → TreeNode → TreeNode
  | l, _, nil => l
  | l, d, node rl rd rr => node l d (unlinkReplacement rl rd rr)

/-- `binaryTree::deleteItem(key, root)`. -/
def deleteItem (key : elemType) : TreeNode → TreeNode
  | nil => nil
  | node l d r =>
    if d ≠ key then
      if key < d then node (deleteItem key l) d r
      else node l d (deleteItem key r)
    else
      match l, r with
      | node ll ld lr, node rl rd rr =>
        node (unlinkReplacement ll ld lr) (replacementData ll ld lr) (node rl rd rr)
      | node ll ld lr, nil => node ll ld lr
      | nil, r => r

/-- The `while (!stack.empty())` loop of `binaryTree::pre_order`; `out`
collects what is printed.  The right child is pushed first, so the left child
is on top.  Only present nodes are pushed, so the clause for a popped `nil` is
never reached, and the clause for fuel `0` is never reached from `pre_order`
(see `pre_orderLoop_eq`). -/
def pre_orderLoop : Nat → List TreeNode → List elemType → List elemType
  | 0, _, out => out
  | _ + 1, [], out => out
  | fuel + 1, nil :: stack, out => pre_orderLoop fuel stack out
  | fuel + 1, node l d r :: stack, out =>
    pre_orderLoop fuel (pushIfPresent l (pushIfPresent r stack)) (out ++ [d])

/-- `binaryTree::pre_order(TreeNode* root)`, as the sequence of keys printed. -/
def pre_order (root : TreeNode) : List elemType :=
  match root with
  | nil => []
  | node l d r => pre_orderLoop (nodes (node l d r)) [node l d r] []

/-- The first loop of `binaryTree::post_order`: every node popped from
`stack1` is pushed onto `stack2`, then its left and its right child are pushed
onto `stack1`.  The result is `stack2` when `stack1` is empty. -/
def post_orderLoop : Nat → List TreeNode → List TreeNode → List TreeNode
  | 0, _, stack2 => stack2
  | _ + 1, [], stack2 => stack2
  | fuel + 1, nil :: stack1, stack2 => post_orderLoop fuel stack1 stack2
  | fuel + 1, node l d r :: stack1, stack2 =>
    post_orderLoop fuel (pushIfPresent r (pushIfPresent l stack1)) (node l d r :: stack2)

/-- The second loop of `binaryTree::post_order`: `stack2` is popped until it
is empty and the key of every popped node is printed. -/
def printStack : List TreeNode → List elemType → List elemType
  | [], out => out
  | nil :: stack2, out => printStack stack2 out
  | node _ d _ :: stack2, out => printStack stack2 (out ++ [d])

/-- `binaryTree::post_order(TreeNode* root)`, as the sequence of keys printed. -/
def post_order (root : TreeNode) : List elemType :=
  match root with
  | nil => []
  | node l d r => printStack (post_orderLoop (nodes (node l d r)) [node l d r] []) []

/-- `nodesQueue.push(p)` guarded by `if (p != nullptr)`; the queue is a list
whose head is `nodesQueue.front()`. -/
def enqueueIfPresent (p : TreeNode) (queue : List TreeNode) : List TreeNode :=
  match p with
  | nil => queue
  | node l d r => queue ++ [node l d r]

/-- The `while (!nodesQueue.empty())` loop of `binaryTree::level_order`; `out`
collects what is printed.  Only present nodes are enqueued, so the clause for
a `nil` at the front is never reached. -/
def level_orderLoop : Nat → List TreeNode → List elemType → List elemType
  | 0, _, out => out
  | _ + 1, [], out => out
  | fuel + 1, nil :: queue, out => level_orderLoop fuel queue out
  | fuel + 1, node l d r :: queue, out =>
    level_orderLoop fuel (enqueueIfPresent r (enqueueIfPresent l queue)) (out ++ [d])

/-- `binaryTree::level_order(TreeNode* root)`, as the sequence of keys printed. -/
def level_order (root : TreeNode) : List elemType :=
  match root with
  | nil => []
  | node l d r => level_orderLoop (nodes (node l d r)) [node l d r] []

/-! Class `BST`. -/

/-- The `while (!stack.empty())` loop of `BST::search`.  A child is pushed
only when it is present, so the clause for a popped `nil` is never reached. -/
def searchLoop (key : elemType) : Nat → List TreeNode → Bool
  | 0, _ => false
  | _ + 1, [] => false
  | fuel + 1, nil :: stack => searchLoop key fuel stack
  | fuel + 1, node l d r :: stack =>
    if key = d then true
    else if key < d ∧ l ≠ nil then searchLoop key fuel (l :: stack)
    else if key > d ∧ r ≠ nil then searchLoop key fuel (r :: stack)
    else searchLoop key fuel stack

/-- `BST::search(key, root)`. -/
def search (key : elemType) (root : TreeNode) : Bool :=
  match root with
  | nil => false
  | node l d r => searchLoop key (nodes (node l d r)) [node l d r]

/-- `BST::searchItem(key)`. -/
def searchItem (key : elemType) (root : TreeNode) : Bool := search key root

/-! Class `balancedBST`. -/

/-- `balancedBST::node_balance(node)`; reads `node->left`, so a null `node`
is a fault. -/
def node_balance : TreeNode → Option Int
  | nil => none
  | node l _ r => some (node_height l - node_height r)

/-- `balancedBST::R_rotate(node)`: the pivot is `node->right`. -/
def R_rotate : TreeNode → Option TreeNode
  | node l d (node pl pd pr) => some (node (node l d pl) pd pr)
  | _ => none

/-- `balancedBST::L_rotate(node)`: the pivot is `node->left`. -/
def L_rotate : TreeNode → Option TreeNode
  | node (node pl pd pr) d r => some (node pl pd (node pr d r))
  | _ => none

/-- `balancedBST::RL_rotate(node)`. -/
def RL_rotate : TreeNode → Option TreeNode
  | nil => none
  | node l d r => do
    let r' ← L_rotate r
    R_rotate (node l d r')

/-- `balancedBST::LR_rotate(node)`. -/
def LR_rotate : TreeNode → Option TreeNode
  | nil => none
  | node l d r => do
    let l' ← R_rotate l
    L_rotate (node l' d r)

/-- `balancedBST::balanceTree(node)`. -/
def balanceTree (node : TreeNode) : Option TreeNode := do
  let balance_Fact ← node_balance node
  if balance_Fact > 1 then
    match node with
    | nil => none
    | .node l d r => do
      let lb ← node_balance l
      if lb > 0 then L_rotate (.node l d r) else LR_rotate (.node l d r)
  else if balance_Fact < -1 then
    match node with
    | nil => none
    | .node l d r => do
      let rb ← node_balance r
      if rb > 0 then RL_rotate (.node l d r) else R_rotate (.node l d r)
  else some node

/-- `balancedBST::insertNode(key, node)` (the private, recursive overload). -/
def insertNode (key : elemType) : TreeNode → Option TreeNode
  | nil => balanceTree (node nil key nil)
  | node l d r =>
    if key < d then do
      let l' ← insertNode key l
      let n ← balanceTree (node l' d r)
      balanceTree n
    else if key > d then do
      let r' ← insertNode key r
      let n ← balanceTree (node l d r')
      balanceTree n
    else balanceTree (node l d r)

/-- `balancedBST::deleteNode(key)`:
`binaryTree::deleteItem(key); root = balanceTree(root);`. -/
def deleteNode (key : elemType) (root : TreeNode) : Option TreeNode :=
  balanceTree (deleteItem key root)


/-! The rebalance step of `src/AVLtrees_2.cpp`.  Its `height` and
`node_balance` are the ones of `src/AVLtrees.cpp`, character for character;
its rotations and `balanceTree` differ and carry the suffix `_2` here. -/

/-- `balancedBST::R_rotate(node)` of `src/AVLtrees_2.cpp`: the pivot is
`node->left`. -/
def R_rotate_2 : TreeNode → Option TreeNode
  | node (node pl pd pr) d r => some (node pl pd (node pr d r))
  | _ => none

/-- `balancedBST::L_rotate(node)` of `src/AVLtrees_2.cpp`: the pivot is
`node->right`. -/
def L_rotate_2 : TreeNode → Option TreeNode
  | node l d (node pl pd pr) => some (node (node l d pl) pd pr)
  | _ => none

/-- `balancedBST::RL_rotate(node)` of `src/AVLtrees_2.cpp`. -/
def RL_rotate_2 : TreeNode → Option TreeNode
  | nil => none
  | node l d r => do
    let r' ← R_rotate_2 r
    L_rotate_2 (node l d r')

/-- `balancedBST::LR_rotate(node)` of `src/AVLtrees_2.cpp`. -/
def LR_rotate_2 : TreeNode → Option TreeNode
  | nil => none
  | node l d r => do
    let l' ← L_rotate_2 l
    R_rotate_2 (node l' d r)

/-- `balancedBST::balanceTree(node)` of `src/AVLtrees_2.cpp`. -/
def balanceTree_2 (node : TreeNode) : Option TreeNode := do
  let balanceFactor ← node_balance node
  if balanceFactor > 1 then
    match node with
    | nil => none
    | .node l d r => do
      let lb ← node_balance l
      if lb ≥ 0 then R_rotate_2 (.node l d r) else LR_rotate_2 (.node l d r)
  else if balanceFactor < -1 then
    match node with
    | nil => none
    | .node l d r => do
      let rb ← node_balance r
      if rb ≤ 0 then L_rotate_2 (.node l d r) else RL_rotate_2 (.node l d r)
  else some node

/-! The rotations as the specification words them (section 4.2): each takes a
subtree root and returns the new subtree root; reading a null pivot is a fault. -/

/-- Rotate-Right: `pivot = node.left`; `node.left = pivot.right`;
`pivot.right = node`; return `pivot`. -/
def rotateRight : TreeNode → Option TreeNode
  | node (node pl pd pr) d r => some (node pl pd (node pr d r))
  | _ => none

/-- Rotate-Left: `pivot = node.right`; `node.right = pivot.left`;
`pivot.left = node`; return `pivot`. -/
def rotateLeft : TreeNode → Option TreeNode
  | node l d (node pl pd pr) => some (node (node l d pl) pd pr)
  | _ => none

/-- Rotate-Left-Right: `node.left = Rotate-Left(node.left)`; return
`Rotate-Right(node)`. -/
def rotateLeftRight : TreeNode → Option TreeNode
  | nil => none
  | node l d r => (rotateLeft l).bind (fun l' => rotateRight (node l' d r))

/-- Rotate-Right-Left: `node.right = Rotate-Right(node.right)`; return
`Rotate-Left(node)`. -/
def rotateRightLeft : TreeNode → Option TreeNode
  | nil => none
  | node l d r => (rotateRight r).bind (fun r' => rotateLeft (node l d r'))

/-! Vocabulary of the proofs: loop measures, decision procedures, call sequences
and the concrete trees used as inputs. -/

/-- Total number of nodes below the entries of a stack. -/
def stackNodes (stack : List TreeNode) : Nat := (stack.map nodes).sum

/-- Keys that `in_order` still has to print for the nodes waiting on its
stack: each waiting node, then its right subtree. -/
def pendingKeys : List TreeNode → List elemType
  | [] => []
  | nil :: s => pendingKeys s
  | node _ d r :: s => d :: inorder r ++ pendingKeys s

/-- Number of iterations `in_order` still owes to the nodes on its stack. -/
def pendingWeight : List TreeNode → Nat
  | [] => 0
  | nil :: s => pendingWeight s
  | node _ _ r :: s => 1 + nodes r + pendingWeight s

/-- The path `BST::search` follows, as a structural recursion: at most one
child is ever pushed, so the stack holds at most one node. -/
def descend (key : elemType) : TreeNode → Bool
  | nil => false
  | node l d r =>
    if key = d then true
    else if key < d then descend key l
    else if key > d then descend key r
    else false

/-- A key put into a strictly increasing list: the list itself when the key
is there already, the key at its sorted position otherwise. -/
def insertKey (k : elemType) (xs : List elemType) : List elemType :=
  if k ∈ xs then xs else xs.orderedInsert (· ≤ ·) k

/-- The descent of `insertNode` with every `balanceTree` call left out. -/
def descentInsert (k : elemType) : TreeNode → TreeNode
  | nil => node nil k nil
  | node l d r =>
    if k < d then node (descentInsert k l) d r
    else if k > d then node l d (descentInsert k r)
    else node l d r

instance allKeys.instDecidable (p : elemType → Prop) [DecidablePred p] :
    (t : TreeNode) → Decidable (allKeys p t)
  | nil => isTrue trivial
  | node l d r =>
    have := allKeys.instDecidable p l
    have := allKeys.instDecidable p r
    inferInstanceAs (Decidable (allKeys p l ∧ p d ∧ allKeys p r))

instance isBST.instDecidable : (t : TreeNode) → Decidable (isBST t)
  | nil => isTrue trivial
  | node l d r =>
    have := isBST.instDecidable l
    have := isBST.instDecidable r
    inferInstanceAs (Decidable (allKeys (fun x => x < d) l ∧ allKeys (fun x => d < x) r ∧ isBST l ∧ isBST r))

instance holds.instDecidable (k : elemType) : (t : TreeNode) → Decidable (holds k t)
  | nil => isFalse (fun h => h)
  | node l d r =>
    have := holds.instDecidable k l
    have := holds.instDecidable k r
    inferInstanceAs (Decidable (holds k l ∨ k = d ∨ holds k r))

/-- The balance factor of a present node is `-1`, `0` or `1`. -/
def balanceOK (n : TreeNode) : Prop :=
  match node_balance n with
  | some b => -1 ≤ b ∧ b ≤ 1
  | none => False

instance balanceOK.instDecidable (n : TreeNode) : Decidable (balanceOK n) := by
  unfold balanceOK
  cases node_balance n <;> infer_instance

/-- Every node of the tree has balance factor (`node_balance`) in `{-1, 0, 1}`. -/
def allBalanced : TreeNode → Prop
  | nil => True
  | node l d r => balanceOK (node l d r) ∧ allBalanced l ∧ allBalanced r

instance allBalanced.instDecidable : (t : TreeNode) → Decidable (allBalanced t)
  | nil => isTrue trivial
  | node l d r =>
    have := allBalanced.instDecidable l
    have := allBalanced.instDecidable r
    inferInstanceAs (Decidable (balanceOK (node l d r) ∧ allBalanced l ∧ allBalanced r))

/-- The AVL invariant with the textbook height. -/
def isAVL : TreeNode → Prop
  | nil => True
  | node l _ r =>
    (-1 ≤ textbookHeight l - textbookHeight r ∧ textbookHeight l - textbookHeight r ≤ 1) ∧
      isAVL l ∧ isAVL r

instance isAVL.instDecidable : (t : TreeNode) → Decidable (isAVL t)
  | nil => isTrue trivial
  | node l _ r =>
    have := isAVL.instDecidable l
    have := isAVL.instDecidable r
    inferInstanceAs (Decidable ((-1 ≤ textbookHeight l - textbookHeight r ∧
      textbookHeight l - textbookHeight r ≤ 1) ∧ isAVL l ∧ isAVL r))

/-- One public mutating call on a `balancedBST`. -/
inductive Call where
  | insertNode (key : elemType) : Call
  | deleteNode (key : elemType) : Call
  deriving DecidableEq

/-- The effect of one call on `root`; `none` when the call faults. -/
def applyCall : Call → TreeNode → Option TreeNode
  | Call.insertNode key, root => insertNode key root
  | Call.deleteNode key, root => deleteNode key root

/-- A sequence of calls, each starting from the root the previous one left. -/
def runCalls : List Call → TreeNode → Option TreeNode
  | [], root => some root
  | c :: cs, root => (applyCall c root).bind (runCalls cs)

/-- A node without children. -/
def leaf (d : elemType) : TreeNode := node nil d nil

/-- The calls `insertNode(k)` for the keys of a list, in order. -/
def insertCalls (keys : List elemType) : List Call := keys.map Call.insertNode

/-- A short session: insert `b`, `a`, `c`, `a` again, then delete `b`. -/
def sampleCalls : List Call :=
  [Call.insertNode 98, Call.insertNode 97, Call.insertNode 99, Call.insertNode 97,
    Call.deleteNode 98]

/-- The tree `insertNode` builds from `'a'..'f'` inserted in ascending order. -/
def sixKeys : TreeNode :=
  node (node (leaf 97) 98 nil) 99 (node (leaf 100) 101 (leaf 102))

/-- The tree `insertNode` returns for `'g'` on `sixKeys`. -/
def sevenKeys : TreeNode :=
  node (node (leaf 97) 98 nil) 99 (node (leaf 100) 101 (node nil 102 (leaf 103)))

/-- The tree `insertNode` builds from `'a'..'h'` inserted in ascending order. -/
def ascendingEight : TreeNode :=
  node (node (node (leaf 97) 98 nil) 99 (leaf 100)) 101 (node nil 102 (node nil 103 (leaf 104)))

/-- The tree `insertNode` builds from `b, c, e, f, g, a, h, d` in this order. -/
def eightKeys : TreeNode :=
  node (node (leaf 97) 98 (node nil 99 (leaf 100))) 101 (node (leaf 102) 103 (leaf 104))

/-- What `deleteNode('a')` leaves of `eightKeys`. -/
def eightKeysMinusA : TreeNode :=
  node (node nil 98 (node nil 99 (leaf 100))) 101 (node (leaf 102) 103 (leaf 104))

/-- The keys `'a'..'z'` in the order `main` inserts them: `(char)i+97` for
`i = 0..25`. -/
def alphabet : List elemType := (List.range 26).map (fun i => 97 + (i : Int))

/-- The tree `insertNode` builds from `alphabet` (Scenario A). -/
def alphabetTree : TreeNode :=
  node
    (node
      (node (node (node (leaf 97) 98 nil) 99 (leaf 100)) 101 (node nil 102 (leaf 103)))
      104
      (node (node (leaf 105) 106 nil) 107 (leaf 108)))
    109
    (node
      (node (node nil 110 (leaf 111)) 112 (node (leaf 113) 114 nil))
      115
      (node (node (leaf 116) 117 nil) 118 (node (leaf 119) 120 (node nil 121 (leaf 122)))))

/-- What `deleteNode('a')` leaves of `alphabetTree` (Scenario B). -/
def alphabetMinusA : TreeNode :=
  node
    (node
      (node
        (node (node (leaf 98) 99 (leaf 100)) 101 (node nil 102 (leaf 103)))
        104
        (node (node (leaf 105) 106 nil) 107 (leaf 108)))
      109
      (node (node nil 110 (leaf 111)) 112 (node (leaf 113) 114 nil)))
    115
    (node (node (leaf 116) 117 nil) 118 (node (leaf 119) 120 (node nil 121 (leaf 122))))

/-- The tree `balanceTree` returns for `sevenKeys`: one rotation at the root. -/
def sevenKeysRotated : TreeNode :=
  node (node (node (leaf 97) 98 nil) 99 (leaf 100)) 101 (node nil 102 (leaf 103))

/-- What `deleteNode('d')` leaves of `sevenKeys`. -/
def sevenKeysMinusD : TreeNode :=
  node (node (leaf 97) 98 nil) 99 (node nil 101 (node nil 102 (leaf 103)))

/-- A node with `node_balance` 2 whose left child has `node_balance` 0; it is
the argument of the second `balanceTree` call at `'g'` while `insertNode('h')`
runs on `sevenKeys`. -/
def tieNode : TreeNode := node (node (leaf 100) 101 (leaf 102)) 103 (leaf 104)

/-- Keys of the nodes visited on the descent from the root to `key`. -/
def pathKeys (key : elemType) : TreeNode → List elemType
  | nil => []
  | node l d r =>
    if key = d then [d]
    else if key < d then d :: pathKeys key l
    else d :: pathKeys key r

/-- The subtree rooted at the node the descent to `x` stops at. -/
def subtreeAt (x : elemType) : TreeNode → TreeNode
  | nil => nil
  | node l d r =>
    if x = d then node l d r
    else if x < d then subtreeAt x l
    else subtreeAt x r

/-- The order in which the first loop of `post_order` pops the nodes of a
tree: the node, then its right subtree, then its left subtree. -/
def visitOrder : TreeNode → List TreeNode
  | nil => []
  | node l d r => node l d r :: (visitOrder r ++ visitOrder l)

/-- Keys of the present nodes of a stack or queue, from its head. -/
def rootKeys : List TreeNode → List elemType
  | [] => []
  | nil :: s => rootKeys s
  | node _ d _ :: s => d :: rootKeys s

/-- Present children of the nodes of a queue, in queue order, left before right. -/
def kids : List TreeNode → List TreeNode
  | [] => []
  | nil :: q => kids q
  | node l _ r :: q => enqueueIfPresent r (enqueueIfPresent l []) ++ kids q

/-- Keys at depth `n` below the entries of a queue, in queue order. -/
def levelAt (n : Nat) (queue : List TreeNode) : List elemType :=
  queue.flatMap (levelKeys n)

/-- Keys at depths `0 .. N-1` below the entries of a queue, depth by depth. -/
def levelsUpTo (N : Nat) (queue : List TreeNode) : List elemType :=
  (List.range N).flatMap (fun n => levelAt n queue)

/-- The result of a rotation has the in-order sequence of its argument, and
is a BST when the argument is. -/
def keepsOrder (t : TreeNode) (result : Option TreeNode) : Prop :=
  ∃ t', result = some t' ∧ in_order t' = in_order t ∧ (isBST t → isBST t')

/-- The tree `insertNode` builds from `b, a, c`: a root with two leaves. -/
def threeKeys : TreeNode := node (leaf 97) 98 (leaf 99)

/-- The argument of `balanceTree` at `'c'` while `insertNode('a')` runs on the
tree built from `c, b`: a left chain of three nodes. -/
def leftChain : TreeNode := node (node (leaf 97) 98 nil) 99 nil

/-- The insertion of the specification (section 4.4): a new leaf on `nil`, the
node unchanged on an equal key, and otherwise the insertion into the proper
child followed by one `balanceTree` at this node. -/
def insertReference (key : elemType) : TreeNode → Option TreeNode
  | nil => some (node nil key nil)
  | node l d r =>
    if key < d then (insertReference key l).bind (fun l' => balanceTree (node l' d r))
    else if key > d then (insertReference key r).bind (fun r' => balanceTree (node l d r'))
    else some (node l d r)

/-- Key of the rightmost node of a tree. -/
def rightmostKey : TreeNode → Option elemType
  | nil => none
  | node _ d nil => some d
  | node _ _ (node rl rd rr) => rightmostKey (node rl rd rr)

/-- The tree without its rightmost node, whose left child takes its place. -/
def spliceRightmost : TreeNode → TreeNode
  | nil => nil
  | node l _ nil => l
  | node l d (node rl rd rr) => node l d (spliceRightmost (node rl rd rr))

/-- The tree with the subtree at which the descent to `x` stops replaced by
`new`. -/
def replaceAt (x : elemType) (new : TreeNode) : TreeNode → TreeNode
  | nil => new
  | node l d r =>
    if x = d then new
    else if x < d then node (replaceAt x new l) d r
    else node l d (replaceAt x new r)

/-- The argument of `balanceTree` at `'a'` while `insertNode('c')` runs on the
tree built from `a, b`: a right chain of three nodes. -/
def rightChain : TreeNode := node nil 97 (node nil 98 (leaf 99))

/-! The stack loops terminate within their fuel and compute node counts. -/

theorem nodes_pos_of_ne_nil {t : TreeNode} (h : t ≠ nil) : 0 < nodes t := by
  cases t with
  | nil => exact absurd rfl h
  | node l d r => simp only [nodes]; omega

theorem stackNodes_cons (t : TreeNode) (s : List TreeNode) :
    stackNodes (t :: s) = nodes t + stackNodes s := by
  simp [stackNodes]

theorem stackNodes_pushIfPresent (p : TreeNode) (s : List TreeNode) :
    stackNodes (pushIfPresent p s) = nodes p + stackNodes s := by
  cases p with
  | nil => simp [pushIfPresent, nodes]
  | node l d r => simp [pushIfPresent, stackNodes_cons]

theorem pushIfPresent_ne_nil (p : TreeNode) (s : List TreeNode)
    (hs : ∀ t ∈ s, t ≠ nil) : ∀ t ∈ pushIfPresent p s, t ≠ nil := by
  cases p with
  | nil => simpa [pushIfPresent] using hs
  | node l d r =>
    intro t ht
    simp only [pushIfPresent, List.mem_cons] at ht
    rcases ht with rfl | ht
    · simp
    · exact hs t ht

theorem sizeLoop_eq (fuel : Nat) : ∀ (stack : List TreeNode) (count : Int),
    (∀ t ∈ stack, t ≠ nil) → stackNodes stack ≤ fuel →
    sizeLoop fuel stack count = count + stackNodes stack := by
  induction fuel with
  | zero =>
    intro stack count hs hf
    cases stack with
    | nil => simp [sizeLoop, stackNodes]
    | cons t s =>
      have := nodes_pos_of_ne_nil (hs t (List.mem_cons_self _ _))
      rw [stackNodes_cons] at hf
      omega
  | succ fuel ih =>
    intro stack count hs hf
    cases stack with
    | nil => simp [sizeLoop, stackNodes]
    | cons t s =>
      cases t with
      | nil => exact absurd rfl (hs nil (List.mem_cons_self _ _))
      | node l d r =>
        have hs' : ∀ t ∈ s, t ≠ nil := fun t ht => hs t (List.mem_cons_of_mem _ ht)
        rw [stackNodes_cons] at hf ⊢
        simp only [nodes] at hf ⊢
        rw [sizeLoop, ih _ _ (pushIfPresent_ne_nil _ _ (pushIfPresent_ne_nil _ _ hs'))]
        · rw [stackNodes_pushIfPresent, stackNodes_pushIfPresent]
          push_cast; ring
        · rw [stackNodes_pushIfPresent, stackNodes_pushIfPresent]
          omega

/-- The loop of `size` terminates within its fuel and counts every node. -/
theorem size_eq_nodes (t : TreeNode) : size t = nodes t := by
  cases t with
  | nil => simp [size, nodes]
  | node l d r =>
    rw [size, sizeLoop_eq _ _ _ (by simp) (by simp [stackNodes])]
    simp [stackNodes]

theorem heightLoop_eq (fuel : Nat) : ∀ (stack : List TreeNode) (count : Int),
    (∀ t ∈ stack, t ≠ nil) → stackNodes stack ≤ fuel →
    heightLoop fuel stack count count = count + stackNodes stack := by
  induction fuel with
  | zero =>
    intro stack count hs hf
    cases stack with
    | nil => simp [heightLoop, stackNodes]
    | cons t s =>
      have := nodes_pos_of_ne_nil (hs t (List.mem_cons_self _ _))
      rw [stackNodes_cons] at hf
      omega
  | succ fuel ih =>
    intro stack count hs hf
    cases stack with
    | nil => simp [heightLoop, stackNodes]
    | cons t s =>
      cases t with
      | nil => exact absurd rfl (hs nil (List.mem_cons_self _ _))
      | node l d r =>
        have hs' : ∀ t ∈ s, t ≠ nil := fun t ht => hs t (List.mem_cons_of_mem _ ht)
        rw [stackNodes_cons] at hf ⊢
        simp only [nodes] at hf ⊢
        have hmax : (if count + 1 > count then count + 1 else count) = count + 1 := by
          rw [if_pos (by omega)]
        rw [heightLoop, hmax, ih _ _ (pushIfPresent_ne_nil _ _ (pushIfPresent_ne_nil _ _ hs'))]
        · rw [stackNodes_pushIfPresent, stackNodes_pushIfPresent]
          push_cast; ring
        · rw [stackNodes_pushIfPresent, stackNodes_pushIfPresent]
          omega

/-- The loop of `height` terminates within its fuel; what it returns is the
number of nodes minus one. -/
theorem height_eq_nodes (t : TreeNode) : height t = (nodes t : Int) - 1 := by
  cases t with
  | nil => simp [height, nodes]
  | node l d r =>
    rw [height, heightLoop_eq _ _ _ (by simp) (by simp [stackNodes])]
    simp only [stackNodes, List.map_cons, List.map_nil, List.sum_cons, List.sum_nil]
    omega

/-! The traversal and search loops. -/

theorem descendLeft_keys (c : TreeNode) : ∀ s : List TreeNode,
    pendingKeys (descendLeft c s) = inorder c ++ pendingKeys s := by
  induction c with
  | nil => intro s; simp [descendLeft, inorder]
  | node l d r ihl _ =>
    intro s
    rw [descendLeft, ihl]
    simp [pendingKeys, inorder]

theorem descendLeft_weight (c : TreeNode) : ∀ s : List TreeNode,
    pendingWeight (descendLeft c s) = nodes c + pendingWeight s := by
  induction c with
  | nil => intro s; simp [descendLeft, nodes]
  | node l d r ihl _ =>
    intro s
    rw [descendLeft, ihl]
    simp only [pendingWeight, nodes]
    omega

theorem descendLeft_ne_nil (c : TreeNode) : ∀ s : List TreeNode,
    (∀ t ∈ s, t ≠ nil) → ∀ t ∈ descendLeft c s, t ≠ nil := by
  induction c with
  | nil => intro s hs; simpa [descendLeft] using hs
  | node l d r ihl _ =>
    intro s hs
    rw [descendLeft]
    apply ihl
    intro t ht
    simp only [List.mem_cons] at ht
    rcases ht with rfl | ht
    · simp
    · exact hs t ht

theorem in_orderLoop_eq (fuel : Nat) : ∀ (c : TreeNode) (s : List TreeNode) (out : List elemType),
    (∀ t ∈ s, t ≠ nil) → nodes c + pendingWeight s ≤ fuel →
    in_orderLoop fuel c s out = out ++ (inorder c ++ pendingKeys s) := by
  induction fuel with
  | zero =>
    intro c s out hs hf
    have hc : c = nil := by
      by_contra h
      have := nodes_pos_of_ne_nil h
      omega
    subst hc
    cases s with
    | nil => simp [in_orderLoop, inorder, pendingKeys]
    | cons t s =>
      cases t with
      | nil => exact absurd rfl (hs nil (List.mem_cons_self _ _))
      | node l d r => simp only [pendingWeight] at hf; omega
  | succ fuel ih =>
    intro c s out hs hf
    rw [in_orderLoop]
    split
    · next h =>
      obtain ⟨rfl, rfl⟩ := h
      simp [inorder, pendingKeys]
    · next h =>
      have hk := descendLeft_keys c s
      have hw := descendLeft_weight c s
      have hn := descendLeft_ne_nil c s hs
      generalize descendLeft c s = s' at hk hw hn
      cases s' with
      | nil =>
        exfalso
        apply h
        simp only [pendingWeight] at hw
        constructor
        · by_contra hc
          have := nodes_pos_of_ne_nil hc
          omega
        · cases s with
          | nil => rfl
          | cons t s =>
            cases t with
            | nil => exact absurd rfl (hs nil (List.mem_cons_self _ _))
            | node l d r => simp only [pendingWeight] at hw; omega
      | cons t rest =>
        cases t with
        | nil => exact absurd rfl (hn nil (List.mem_cons_self _ _))
        | node l d r =>
          simp only
          rw [ih r rest _ (fun t ht => hn t (List.mem_cons_of_mem _ ht))]
          · rw [← hk]; simp [pendingKeys]
          · simp only [pendingWeight] at hw; omega

/-- The loop of `in_order` terminates within its fuel and prints the keys in
left-node-right order. -/
theorem in_order_eq_inorder (t : TreeNode) : in_order t = inorder t := by
  cases t with
  | nil => simp [in_order, inorder]
  | node l d r =>
    rw [in_order, in_orderLoop_eq _ _ _ _ (by simp) (by simp [pendingWeight])]
    simp [pendingKeys]

theorem searchLoop_nil_stack (key : elemType) (fuel : Nat) : searchLoop key fuel [] = false := by
  cases fuel <;> simp [searchLoop]

theorem searchLoop_eq (key : elemType) (fuel : Nat) : ∀ t : TreeNode,
    t ≠ nil → nodes t ≤ fuel → searchLoop key fuel [t] = descend key t := by
  induction fuel with
  | zero =>
    intro t ht hf
    have := nodes_pos_of_ne_nil ht
    omega
  | succ fuel ih =>
    intro t ht hf
    cases t with
    | nil => exact absurd rfl ht
    | node l d r =>
      simp only [nodes] at hf
      rw [searchLoop, descend]
      by_cases h1 : key = d
      · simp [h1]
      · rw [if_neg h1, if_neg h1]
        by_cases h2 : key < d
        · by_cases hl : l = nil
          · subst hl
            have h3 : ¬ key > d := not_lt.mpr (le_of_lt h2)
            simp [h2, h3, searchLoop_nil_stack, descend]
          · rw [if_pos ⟨h2, hl⟩, if_pos h2]
            exact ih l hl (by omega)
        · have h2' : ¬ (key < d ∧ l ≠ nil) := fun h => h2 h.1
          rw [if_neg h2', if_neg h2]
          by_cases h3 : key > d
          · by_cases hr : r = nil
            · subst hr
              simp [h3, searchLoop_nil_stack, descend]
            · rw [if_pos ⟨h3, hr⟩, if_pos h3]
              exact ih r hr (by omega)
          · exact absurd (lt_of_le_of_ne (not_lt.mp h3) h1) h2

theorem search_eq_descend (key : elemType) (t : TreeNode) : search key t = descend key t := by
  cases t with
  | nil => simp [search, descend]
  | node l d r => exact searchLoop_eq key _ _ (by simp) (le_refl _)

/-! Order, membership and the rebalance step. -/

theorem allKeys_iff (p : elemType → Prop) (t : TreeNode) :
    allKeys p t ↔ ∀ x ∈ inorder t, p x := by
  induction t with
  | nil => simp [allKeys, inorder]
  | node l d r ihl ihr =>
    simp only [allKeys, inorder, ihl, ihr, List.mem_append, List.mem_cons]
    constructor
    · rintro ⟨h1, h2, h3⟩ x (hx | rfl | hx)
      · exact h1 x hx
      · exact h2
      · exact h3 x hx
    · intro h
      exact ⟨fun x hx => h x (Or.inl hx), h d (Or.inr (Or.inl rfl)),
        fun x hx => h x (Or.inr (Or.inr hx))⟩

theorem holds_iff (k : elemType) (t : TreeNode) : holds k t ↔ k ∈ inorder t := by
  induction t with
  | nil => simp [holds, inorder]
  | node l d r ihl ihr => simp [holds, inorder, ihl, ihr]

theorem isBST_iff (t : TreeNode) : isBST t ↔ (inorder t).Sorted (· < ·) := by
  induction t with
  | nil => simp [isBST, inorder]
  | node l d r ihl ihr =>
    simp only [isBST, inorder, List.Sorted, List.pairwise_append, List.pairwise_cons,
      List.mem_cons, allKeys_iff]
    simp only [List.Sorted] at ihl ihr
    rw [ihl, ihr]
    constructor
    · rintro ⟨h1, h2, h3, h4⟩
      refine ⟨h3, ⟨h2, h4⟩, ?_⟩
      rintro a ha b (rfl | hb)
      · exact h1 a ha
      · exact lt_trans (h1 a ha) (h2 b hb)
    · rintro ⟨h1, ⟨h2, h3⟩, h4⟩
      exact ⟨fun a ha => h4 a ha d (Or.inl rfl), h2, h1, h3⟩

theorem nodes_eq_length (t : TreeNode) : nodes t = (inorder t).length := by
  induction t with
  | nil => rfl
  | node l d r ihl ihr => simp [nodes, inorder, ihl, ihr]; omega

theorem eq_nil_of_nodes_eq_zero {t : TreeNode} (h : nodes t = 0) : t = nil := by
  cases t with
  | nil => rfl
  | node l d r => simp only [nodes] at h; omega

/-- On a BST the descent of `search` finds exactly the keys of the tree. -/
theorem descend_iff (key : elemType) (t : TreeNode) (h : isBST t) :
    descend key t = true ↔ holds key t := by
  induction t with
  | nil => simp [descend, holds]
  | node l d r ihl ihr =>
    obtain ⟨hl, hr, hbl, hbr⟩ := h
    rw [allKeys_iff] at hl hr
    simp only [descend, holds]
    by_cases h1 : key = d
    · simp [h1]
    · rw [if_neg h1]
      by_cases h2 : key < d
      · rw [if_pos h2, ihl hbl]
        constructor
        · exact Or.inl
        · rintro (h | h | h)
          · exact h
          · exact absurd h h1
          · exact absurd (hr key ((holds_iff _ _).1 h)) (not_lt.mpr (le_of_lt h2))
      · rw [if_neg h2]
        have h3 : key > d := lt_of_le_of_ne (not_lt.mp h2) (Ne.symm h1)
        rw [if_pos h3, ihr hbr]
        constructor
        · exact fun h => Or.inr (Or.inr h)
        · rintro (h | h | h)
          · exact absurd (hl key ((holds_iff _ _).1 h)) (not_lt.mpr (le_of_lt h3))
          · exact absurd h h1
          · exact h

/-- What `balanceTree` does on a present node: it never reads through a null
pointer, and the tree it returns has the keys of its argument in the same
left-to-right order. -/
theorem balanceTree_node (l : TreeNode) (d : elemType) (r : TreeNode) :
    ∃ t', balanceTree (node l d r) = some t' ∧ t' ≠ nil ∧
      inorder t' = inorder (node l d r) := by
  simp only [balanceTree, node_balance, node_height, height_eq_nodes, Option.some_bind,
    Option.bind_eq_bind]
  split
  · next h =>
    cases l with
    | nil => simp [nodes] at h; omega
    | node ll ld lr =>
      simp only [Option.some_bind, nodes] at h ⊢
      split
      · exact ⟨_, rfl, by simp, by simp [inorder]⟩
      · next h2 =>
        cases lr with
        | nil =>
          exfalso
          simp only [nodes] at h h2
          omega
        | node a x b =>
          exact ⟨_, rfl, by simp, by simp [inorder]⟩
  · split
    · next h0 h =>
      cases r with
      | nil => simp [nodes] at h; omega
      | node rl rd rr =>
        simp only [Option.some_bind, nodes] at h ⊢
        split
        · next h2 =>
          cases rl with
          | nil =>
            exfalso
            simp only [nodes] at h h2
            omega
          | node a x b =>
            exact ⟨_, rfl, by simp, by simp [inorder]⟩
        · exact ⟨_, rfl, by simp, by simp [inorder]⟩
    · exact ⟨_, rfl, by simp, rfl⟩

/-! Insertion and deletion. -/

theorem balanceTree_of_ne_nil {t : TreeNode} (h : t ≠ nil) :
    ∃ t', balanceTree t = some t' ∧ t' ≠ nil ∧ inorder t' = inorder t := by
  cases t with
  | nil => exact absurd rfl h
  | node l d r => exact balanceTree_node l d r

theorem insertNode_total (k : elemType) (t : TreeNode) :
    ∃ t', insertNode k t = some t' ∧ t' ≠ nil ∧ inorder t' = inorder (descentInsert k t) := by
  induction t with
  | nil =>
    obtain ⟨t', h1, h2, h3⟩ := balanceTree_node nil k nil
    exact ⟨t', by rw [insertNode, h1], h2, by rw [h3, descentInsert]⟩
  | node l d r ihl ihr =>
    rw [insertNode, descentInsert]
    by_cases h1 : k < d
    · rw [if_pos h1, if_pos h1]
      obtain ⟨l', hl1, _, hl3⟩ := ihl
      obtain ⟨n, hn1, hn2, hn3⟩ := balanceTree_node l' d r
      obtain ⟨t', ht1, ht2, ht3⟩ := balanceTree_of_ne_nil hn2
      refine ⟨t', ?_, ht2, ?_⟩
      · simp [hl1, hn1, ht1]
      · rw [ht3, hn3, inorder, inorder, hl3]
    · rw [if_neg h1, if_neg h1]
      by_cases h2 : k > d
      · rw [if_pos h2, if_pos h2]
        obtain ⟨r', hr1, _, hr3⟩ := ihr
        obtain ⟨n, hn1, hn2, hn3⟩ := balanceTree_node l d r'
        obtain ⟨t', ht1, ht2, ht3⟩ := balanceTree_of_ne_nil hn2
        refine ⟨t', ?_, ht2, ?_⟩
        · simp [hr1, hn1, ht1]
        · rw [ht3, hn3, inorder, inorder, hr3]
      · rw [if_neg h2, if_neg h2]
        exact balanceTree_node l d r

theorem orderedInsert_append_le (k d : elemType) (hk : k ≤ d) (R : List elemType) :
    ∀ L : List elemType, (L ++ d :: R).orderedInsert (· ≤ ·) k
      = L.orderedInsert (· ≤ ·) k ++ d :: R := by
  intro L
  induction L with
  | nil => simp [List.orderedInsert, hk]
  | cons x L ih =>
    rw [List.cons_append, List.orderedInsert, List.orderedInsert]
    by_cases hx : k ≤ x
    · simp [hx]
    · simp [hx, ih]

theorem orderedInsert_append_gt (k d : elemType) (hk : d < k) (R : List elemType) :
    ∀ L : List elemType, (∀ x ∈ L, x < k) → (L ++ d :: R).orderedInsert (· ≤ ·) k
      = L ++ d :: R.orderedInsert (· ≤ ·) k := by
  intro L
  induction L with
  | nil => intro _; simp [List.orderedInsert, not_le.mpr hk]
  | cons x L ih =>
    intro hL
    have hx : ¬ k ≤ x := not_le.mpr (hL x (List.mem_cons_self _ _))
    rw [List.cons_append, List.orderedInsert, if_neg hx,
      ih (fun y hy => hL y (List.mem_cons_of_mem _ hy)), List.cons_append]

theorem inorder_descentInsert (k : elemType) (t : TreeNode) (h : isBST t) :
    inorder (descentInsert k t) = insertKey k (inorder t) := by
  induction t with
  | nil => simp [descentInsert, inorder, insertKey]
  | node l d r ihl ihr =>
    obtain ⟨hl, hr, hbl, hbr⟩ := h
    rw [allKeys_iff] at hl hr
    rw [descentInsert]
    by_cases h1 : k < d
    · rw [if_pos h1, inorder, ihl hbl, inorder]
      have hR : k ∉ inorder r := fun hm => absurd (hr k hm) (not_lt.mpr (le_of_lt h1))
      unfold insertKey
      by_cases hm : k ∈ inorder l
      · simp [hm]
      · have hm' : k ∉ inorder l ++ d :: inorder r := by
          simp [hm, hR, ne_of_lt h1]
        rw [if_neg hm, if_neg hm', orderedInsert_append_le k d (le_of_lt h1)]
    · rw [if_neg h1]
      by_cases h2 : k > d
      · rw [if_pos h2, inorder, ihr hbr, inorder]
        have hL : k ∉ inorder l := fun hm => absurd (hl k hm) (not_lt.mpr (le_of_lt h2))
        unfold insertKey
        by_cases hm : k ∈ inorder r
        · simp [hm]
        · have hm' : k ∉ inorder l ++ d :: inorder r := by
            simp [hm, hL, ne_of_gt h2]
          rw [if_neg hm, if_neg hm',
            orderedInsert_append_gt k d h2 _ _ (fun x hx => lt_trans (hl x hx) h2)]
      · rw [if_neg h2]
        have hkd : k = d := le_antisymm (not_lt.mp h2) (not_lt.mp h1)
        subst hkd
        simp [insertKey, inorder]

theorem insertKey_sorted (k : elemType) (xs : List elemType) (h : xs.Sorted (· < ·)) :
    (insertKey k xs).Sorted (· < ·) := by
  unfold insertKey
  split
  · exact h
  · next hm =>
    apply List.Sorted.lt_of_le
    · exact (List.Sorted.le_of_lt h).orderedInsert k xs
    · rw [(List.perm_orderedInsert (· ≤ ·) k xs).nodup_iff]
      exact List.nodup_cons.mpr ⟨hm, h.nodup⟩

theorem mem_insertKey (k : elemType) (xs : List elemType) : k ∈ insertKey k xs := by
  unfold insertKey
  split
  · assumption
  · simp

/-- Rebalanced insertion on a BST: it returns, the result is a BST, and its keys are those of the argument with `k` put in. -/
theorem insertNode_spec (k : elemType) (t : TreeNode) (h : isBST t) :
    ∃ t', insertNode k t = some t' ∧ t' ≠ nil ∧ isBST t' ∧
      inorder t' = insertKey k (inorder t) := by
  obtain ⟨t', h1, h2, h3⟩ := insertNode_total k t
  rw [inorder_descentInsert k t h] at h3
  refine ⟨t', h1, h2, ?_, h3⟩
  rw [isBST_iff, h3]
  exact insertKey_sorted k _ ((isBST_iff t).1 h)

theorem inorder_unlinkReplacement (r : TreeNode) : ∀ (l : TreeNode) (d : elemType),
    inorder (unlinkReplacement l d r) ++ [replacementData l d r] = inorder (node l d r) := by
  induction r with
  | nil => intro l d; simp [unlinkReplacement, replacementData, inorder]
  | node rl rd rr _ ih =>
    intro l d
    rw [unlinkReplacement, replacementData, inorder, List.append_assoc, List.cons_append, ih rl rd]
    simp [inorder]

theorem inorder_deleteItem (k : elemType) (t : TreeNode) (h : isBST t) :
    inorder (deleteItem k t) = (inorder t).erase k := by
  induction t with
  | nil => simp [deleteItem, inorder]
  | node l d r ihl ihr =>
    obtain ⟨hl, hr, hbl, hbr⟩ := h
    rw [allKeys_iff] at hl hr
    rw [deleteItem.eq_def, inorder]
    simp only
    by_cases h0 : d ≠ k
    · rw [if_pos h0]
      by_cases h1 : k < d
      · rw [if_pos h1, inorder, ihl hbl]
        have hR : k ∉ inorder r := fun hm => absurd (hr k hm) (not_lt.mpr (le_of_lt h1))
        by_cases hm : k ∈ inorder l
        · rw [List.erase_append_left _ hm]
        · rw [List.erase_append_right _ hm, List.erase_of_not_mem hm,
            List.erase_cons_tail (by simpa using h0), List.erase_of_not_mem hR]
      · rw [if_neg h1, inorder, ihr hbr]
        have h2 : d < k := lt_of_le_of_ne (not_lt.mp h1) h0
        have hL : k ∉ inorder l := fun hm => absurd (hl k hm) (not_lt.mpr (le_of_lt h2))
        rw [List.erase_append_right _ hL, List.erase_cons_tail (by simpa using h0)]
    · rw [if_neg h0]
      have hdk : d = k := not_not.mp h0
      subst hdk
      have hL : d ∉ inorder l := fun hm => absurd (hl d hm) (lt_irrefl d)
      rw [List.erase_append_right _ hL, List.erase_cons_head]
      cases l with
      | nil => simp [inorder]
      | node ll ld lr =>
        cases r with
        | nil => simp [inorder]
        | node rl rd rr =>
          simp only
          rw [inorder, ← inorder_unlinkReplacement lr ll ld]
          simp

theorem isBST_deleteItem (k : elemType) (t : TreeNode) (h : isBST t) :
    isBST (deleteItem k t) := by
  rw [isBST_iff, inorder_deleteItem k t h]
  exact ((isBST_iff t).1 h).sublist (List.erase_sublist k _)

/-- Deletion with the root-level rebalance on a BST: when a node is left, the call returns. -/
theorem deleteNode_spec (k : elemType) (t : TreeNode) (h : isBST t)
    (hne : deleteItem k t ≠ nil) :
    ∃ t', deleteNode k t = some t' ∧ t' ≠ nil ∧ isBST t' ∧
      inorder t' = (inorder t).erase k := by
  obtain ⟨t', h1, h2, h3⟩ := balanceTree_of_ne_nil hne
  refine ⟨t', h1, h2, ?_, by rw [h3, inorder_deleteItem k t h]⟩
  rw [isBST_iff, h3, ← isBST_iff]
  exact isBST_deleteItem k t h

theorem balanceTree_nil : balanceTree nil = none := rfl

/-! Sequences of calls. -/

theorem deleteItem_ne_nil_of_deleteNode {k : elemType} {t t' : TreeNode}
    (h : deleteNode k t = some t') : deleteItem k t ≠ nil := by
  intro hnil
  rw [deleteNode, hnil, balanceTree_nil] at h
  exact Option.noConfusion h

theorem applyCall_isBST (c : Call) (t t' : TreeNode) (hb : isBST t)
    (h : applyCall c t = some t') : isBST t' := by
  cases c with
  | insertNode k =>
    obtain ⟨u, hu, _, hbu, _⟩ := insertNode_spec k t hb
    rw [applyCall, hu] at h
    exact Option.some.inj h ▸ hbu
  | deleteNode k =>
    rw [applyCall] at h
    obtain ⟨u, hu, _, hbu, _⟩ := deleteNode_spec k t hb (deleteItem_ne_nil_of_deleteNode h)
    rw [hu] at h
    exact Option.some.inj h ▸ hbu

theorem runCalls_isBST (calls : List Call) : ∀ (t t' : TreeNode), isBST t →
    runCalls calls t = some t' → isBST t' := by
  induction calls with
  | nil =>
    intro t t' hb h
    rw [runCalls] at h
    exact Option.some.inj h ▸ hb
  | cons c cs ih =>
    intro t t' hb h
    rw [runCalls] at h
    cases hc : applyCall c t with
    | none => rw [hc] at h; exact Option.noConfusion h
    | some u =>
      rw [hc] at h
      exact ih u t' (applyCall_isBST c t u hb hc) h

/-! The claims. -/

/-- C1: after any finite sequence of `insertNode` and `deleteNode` calls on an
initially empty tree, every call of which runs to completion, the in-order
traversal lists the keys in strictly increasing order, so no key occurs twice. -/
theorem in_order_strictly_increasing (calls : List Call) (t : TreeNode)
    (h : runCalls calls nil = some t) :
    (in_order t).Sorted (· < ·) ∧ (in_order t).Nodup := by
  have hb : isBST t := runCalls_isBST calls nil t trivial h
  rw [in_order_eq_inorder]
  have hs := (isBST_iff t).1 hb
  exact ⟨hs, hs.nodup⟩

/-- Witness for C1: insert `b`, `a`, `c`, `a` again, then delete `b`. -/
theorem in_order_strictly_increasing_witness :
    runCalls sampleCalls nil = some (node nil 97 (leaf 99)) ∧
      (in_order (node nil 97 (leaf 99))).Sorted (· < ·) ∧
      (in_order (node nil 97 (leaf 99))).Nodup :=
  ⟨by decide, in_order_strictly_increasing sampleCalls (node nil 97 (leaf 99)) (by decide)⟩

/-- C2 fails on the code: `sixKeys`, built by inserting `'a'..'f'` in ascending
order, is a BST whose nodes all have balance factor in `{-1, 0, 1}`, and
`insertNode('g')` returns `sevenKeys`, whose root has balance factor `-2`. -/
theorem insertNode_leaves_root_unbalanced :
    runCalls (insertCalls [97, 98, 99, 100, 101, 102]) nil = some sixKeys ∧
      isBST sixKeys ∧ allBalanced sixKeys ∧
      insertNode 103 sixKeys = some sevenKeys ∧
      node_balance sevenKeys = some (-2) ∧ ¬ allBalanced sevenKeys := by
  decide

/-- C3 fails on the code: inserting `'a'..'h'` in ascending order into the
empty tree yields `ascendingEight`, in which the node `'f'` has an empty left
subtree and a right subtree of textbook height `1`. -/
theorem ascending_inserts_not_AVL :
    runCalls (insertCalls [97, 98, 99, 100, 101, 102, 103, 104]) nil = some ascendingEight ∧
      ¬ isAVL ascendingEight ∧
      textbookHeight nil - textbookHeight (node nil 103 (leaf 104)) = -2 := by
  decide

/-- C4 fails on the code: `eightKeys` is reachable by `insertNode` calls, is a
BST, and is balanced at every node both by `node_balance` and by the textbook
height; `deleteNode('a')` rebalances at the root only and leaves the node `'b'`
with balance factor `-2` in both senses. -/
theorem deleteNode_leaves_inner_node_unbalanced :
    runCalls (insertCalls [98, 99, 101, 102, 103, 97, 104, 100]) nil = some eightKeys ∧
      isBST eightKeys ∧ allBalanced eightKeys ∧ isAVL eightKeys ∧
      deleteNode 97 eightKeys = some eightKeysMinusA ∧
      node_balance (node nil 98 (node nil 99 (leaf 100))) = some (-2) ∧
      ¬ allBalanced eightKeysMinusA ∧ ¬ isAVL eightKeysMinusA := by
  decide

/-- C5 fails on the code: `deleteNode` faults exactly when `deleteItem` leaves
a null root, because it hands that root to `balanceTree`, whose `node_balance`
reads through the pointer.  This happens on the empty tree with any key, and on
a single node with its own key. -/
theorem deleteNode_faults_on_empty_root (k : elemType) (t : TreeNode) :
    (deleteNode k t = none ↔ deleteItem k t = nil) ∧
      node_balance nil = none ∧ balanceTree nil = none ∧
      deleteNode k nil = none ∧ deleteNode k (leaf k) = none := by
  refine ⟨⟨fun h => ?_, fun h => ?_⟩, rfl, rfl, rfl, ?_⟩
  · by_contra hne
    obtain ⟨t', ht', _⟩ := balanceTree_of_ne_nil hne
    rw [deleteNode, ht'] at h
    exact Option.noConfusion h
  · rw [deleteNode, h, balanceTree_nil]
  · simp [deleteNode, deleteItem, leaf, balanceTree, node_balance]

/-- C6: on a BST, `insertNode` returns, and the in-order sequence of the tree
it returns is that of the argument when the key already occurs there, and
otherwise that of the argument with the key put at its sorted position; the
sequence stays strictly increasing, so nothing else is added, lost or doubled. -/
theorem insertNode_adds_exactly_key (k : elemType) (t : TreeNode) (h : isBST t) :
    ∃ t', insertNode k t = some t' ∧
      (holds k t → in_order t' = in_order t) ∧
      (¬ holds k t → in_order t' = (in_order t).orderedInsert (· ≤ ·) k) ∧
      (in_order t').Sorted (· < ·) := by
  obtain ⟨t', h1, _, hb, h3⟩ := insertNode_spec k t h
  refine ⟨t', h1, ?_, ?_, ?_⟩
  · intro hk
    rw [in_order_eq_inorder, in_order_eq_inorder, h3, insertKey,
      if_pos ((holds_iff k t).1 hk)]
  · intro hk
    rw [in_order_eq_inorder, in_order_eq_inorder, h3, insertKey,
      if_neg (fun hm => hk ((holds_iff k t).2 hm))]
  · rw [in_order_eq_inorder]
    exact (isBST_iff t').1 hb

/-- Witness for C6: `'g'` is inserted into `sixKeys`. -/
theorem insertNode_adds_exactly_key_witness :
    isBST sixKeys ∧
      ∃ t', insertNode 103 sixKeys = some t' ∧
        (holds 103 sixKeys → in_order t' = in_order sixKeys) ∧
        (¬ holds 103 sixKeys → in_order t' = (in_order sixKeys).orderedInsert (· ≤ ·) 103) ∧
        (in_order t').Sorted (· < ·) :=
  ⟨by decide, insertNode_adds_exactly_key 103 sixKeys (by decide)⟩

/-- C7: on a BST (so with distinct keys) that holds `k` and keeps at least one
key once `k` is erased, `deleteNode(k)` returns; the in-order sequence of the
tree it leaves is that of the argument with `k` erased, `treeNodeCount()` is
smaller by exactly one, and every other key is still present. -/
theorem deleteNode_removes_exactly_key (k : elemType) (t : TreeNode) (h : isBST t)
    (hk : holds k t) (hrem : (in_order t).erase k ≠ []) :
    ∃ t', deleteNode k t = some t' ∧
      in_order t' = (in_order t).erase k ∧
      treeNodeCount t' = treeNodeCount t - 1 ∧
      (∀ x, x ≠ k → holds x t → holds x t') := by
  rw [in_order_eq_inorder] at hrem
  have hne : deleteItem k t ≠ nil := by
    intro hnil
    apply hrem
    rw [← inorder_deleteItem k t h, hnil, inorder]
  obtain ⟨t', h1, _, _, h3⟩ := deleteNode_spec k t h hne
  have hmem : k ∈ inorder t := (holds_iff k t).1 hk
  refine ⟨t', h1, ?_, ?_, ?_⟩
  · rw [in_order_eq_inorder, in_order_eq_inorder, h3]
  · rw [treeNodeCount, treeNodeCount, size_eq_nodes, size_eq_nodes, nodes_eq_length,
      nodes_eq_length, h3, List.length_erase_of_mem hmem]
    have hpos : 0 < (inorder t).length := List.length_pos_of_mem hmem
    omega
  · intro x hx hxt
    rw [holds_iff, h3]
    exact (List.mem_erase_of_ne hx).2 ((holds_iff x t).1 hxt)

/-- Witness for C7: `'a'` is deleted from `sixKeys`. -/
theorem deleteNode_removes_exactly_key_witness :
    isBST sixKeys ∧ holds 97 sixKeys ∧ (in_order sixKeys).erase 97 ≠ [] ∧
      ∃ t', deleteNode 97 sixKeys = some t' ∧
        in_order t' = (in_order sixKeys).erase 97 ∧
        treeNodeCount t' = treeNodeCount sixKeys - 1 ∧
        (∀ x, x ≠ 97 → holds x sixKeys → holds x t') :=
  ⟨by decide, by decide, by decide,
    deleteNode_removes_exactly_key 97 sixKeys (by decide) (by decide) (by decide)⟩

/-- C8: on a BST, `insertNode(k)` returns and `searchItem(k)` on the tree it
returns is true. -/
theorem searchItem_after_insertNode (k : elemType) (t : TreeNode) (h : isBST t) :
    ∃ t', insertNode k t = some t' ∧ searchItem k t' = true := by
  obtain ⟨t', h1, _, hb, h3⟩ := insertNode_spec k t h
  refine ⟨t', h1, ?_⟩
  rw [searchItem, search_eq_descend, descend_iff k t' hb, holds_iff, h3]
  exact mem_insertKey k _

/-- Witness for C8: `'g'` is inserted into `sixKeys` and then searched. -/
theorem searchItem_after_insertNode_witness :
    isBST sixKeys ∧ ∃ t', insertNode 103 sixKeys = some t' ∧ searchItem 103 t' = true :=
  ⟨by decide, searchItem_after_insertNode 103 sixKeys (by decide)⟩

/-- C9: on a BST (so with distinct keys), for every key `k`, present or not,
when the tree is not empty after the deletion, `deleteNode(k)` returns and
`searchItem(k)` on the tree it leaves is false. -/
theorem searchItem_after_deleteNode (k : elemType) (t : TreeNode) (h : isBST t)
    (hne : deleteItem k t ≠ nil) :
    ∃ t', deleteNode k t = some t' ∧ searchItem k t' = false := by
  obtain ⟨t', h1, _, hb, h3⟩ := deleteNode_spec k t h hne
  refine ⟨t', h1, ?_⟩
  rw [searchItem, search_eq_descend, Bool.eq_false_iff]
  intro hd
  have hm : k ∈ (inorder t).erase k := by
    rw [← h3, ← holds_iff]
    exact (descend_iff k t' hb).1 hd
  exact absurd rfl (((isBST_iff t).1 h).nodup.mem_erase_iff.1 hm).1

/-- Witness for C9: `'a'` is deleted from `sixKeys` and then searched. -/
theorem searchItem_after_deleteNode_witness :
    isBST sixKeys ∧ deleteItem 97 sixKeys ≠ nil ∧
      ∃ t', deleteNode 97 sixKeys = some t' ∧ searchItem 97 t' = false :=
  ⟨by decide, by decide, searchItem_after_deleteNode 97 sixKeys (by decide) (by decide)⟩

/-- C10: on a BST, `searchItem(k)` is true exactly when some node holds `k`;
on the empty tree it is false. -/
theorem searchItem_decides_membership (k : elemType) (t : TreeNode) (h : isBST t) :
    (searchItem k t = true ↔ holds k t) ∧ searchItem k nil = false := by
  refine ⟨?_, rfl⟩
  rw [searchItem, search_eq_descend]
  exact descend_iff k t h

/-- Witness for C10: `'d'` is searched in `sixKeys`. -/
theorem searchItem_decides_membership_witness :
    isBST sixKeys ∧ (searchItem 100 sixKeys = true ↔ holds 100 sixKeys) ∧
      searchItem 100 nil = false :=
  ⟨by decide, searchItem_decides_membership 100 sixKeys (by decide)⟩

/-! Repeated insertions, absent keys and the scenarios of `main`. -/

theorem mem_insertKey_iff (x k : elemType) (xs : List elemType) :
    x ∈ insertKey k xs ↔ x = k ∨ x ∈ xs := by
  unfold insertKey
  split
  · next hm =>
    constructor
    · exact Or.inr
    · rintro (rfl | h)
      · exact hm
      · exact h
  · simp

theorem treeNodeCount_eq_length (t : TreeNode) :
    treeNodeCount t = ((inorder t).length : Int) := by
  rw [treeNodeCount, size_eq_nodes, nodes_eq_length]

/-- A run of `insertNode` calls from a BST returns a BST that holds the keys it
held before and the keys inserted, and no other key. -/
theorem runCalls_insertCalls (keys : List elemType) : ∀ t : TreeNode, isBST t →
    ∃ t', runCalls (insertCalls keys) t = some t' ∧ isBST t' ∧
      ∀ x, x ∈ inorder t' ↔ x ∈ inorder t ∨ x ∈ keys := by
  induction keys with
  | nil =>
    intro t hb
    exact ⟨t, rfl, hb, by simp⟩
  | cons k ks ih =>
    intro t hb
    obtain ⟨t1, h1, _, hb1, hi1⟩ := insertNode_spec k t hb
    obtain ⟨t', h2, hb2, hm2⟩ := ih t1 hb1
    refine ⟨t', ?_, hb2, ?_⟩
    · simp only [insertCalls, List.map_cons, runCalls, applyCall, h1, Option.some_bind]
      exact h2
    · intro x
      rw [hm2 x, hi1, mem_insertKey_iff, List.mem_cons]
      tauto

theorem runCalls_alphabet : runCalls (insertCalls alphabet) nil = some alphabetTree := by
  set_option maxRecDepth 20000 in decide

/-- C11: on a BST, inserting `k` a second time with `insertNode` returns a
tree with the same in-order key sequence and the same `treeNodeCount()` as the
tree returned by the first insertion. -/
theorem insertNode_twice_same_content (k : elemType) (t : TreeNode) (h : isBST t) :
    ∃ t1 t2, insertNode k t = some t1 ∧ insertNode k t1 = some t2 ∧
      in_order t2 = in_order t1 ∧ treeNodeCount t2 = treeNodeCount t1 := by
  obtain ⟨t1, h1, _, hb1, hi1⟩ := insertNode_spec k t h
  obtain ⟨t2, h2, _, _, hi2⟩ := insertNode_spec k t1 hb1
  have hmem : k ∈ inorder t1 := by
    rw [hi1]
    exact mem_insertKey k _
  have hsame : inorder t2 = inorder t1 := by
    rw [hi2, insertKey, if_pos hmem]
  refine ⟨t1, t2, h1, h2, ?_, ?_⟩
  · rw [in_order_eq_inorder, in_order_eq_inorder, hsame]
  · rw [treeNodeCount_eq_length, treeNodeCount_eq_length, hsame]

/-- Witness for C11: `'g'` is inserted twice, starting from `sixKeys`. -/
theorem insertNode_twice_same_content_witness :
    isBST sixKeys ∧
      ∃ t1 t2, insertNode 103 sixKeys = some t1 ∧ insertNode 103 t1 = some t2 ∧
        in_order t2 = in_order t1 ∧ treeNodeCount t2 = treeNodeCount t1 :=
  ⟨by decide, insertNode_twice_same_content 103 sixKeys (by decide)⟩

/-- C12 fails on the code: `sevenKeys` is what `insertNode` builds from
`'a'..'g'`, it holds `'c'` at its root, and `insertNode('c')` runs the trailing
`balanceTree` on that root, which has balance factor `-2`, and returns the
rotated tree `sevenKeysRotated` with `'e'` at the root. -/
theorem duplicate_insertNode_rotates_root :
    runCalls (insertCalls [97, 98, 99, 100, 101, 102, 103]) nil = some sevenKeys ∧
      holds 99 sevenKeys ∧ node_balance sevenKeys = some (-2) ∧
      insertNode 99 sevenKeys = some sevenKeysRotated ∧
      sevenKeysRotated ≠ sevenKeys ∧ in_order sevenKeysRotated = in_order sevenKeys := by
  decide

/-- C13: on a non-empty BST that does not hold `k`, `deleteNode(k)` returns,
and `treeNodeCount()` and the in-order key sequence are what they were. -/
theorem deleteNode_absent_key_keeps_content (k : elemType) (t : TreeNode) (h : isBST t)
    (hne : t ≠ nil) (hk : ¬ holds k t) :
    ∃ t', deleteNode k t = some t' ∧
      treeNodeCount t' = treeNodeCount t ∧ in_order t' = in_order t := by
  have hmem : k ∉ inorder t := fun hm => hk ((holds_iff k t).2 hm)
  have hdel : inorder (deleteItem k t) = inorder t := by
    rw [inorder_deleteItem k t h, List.erase_of_not_mem hmem]
  have hne' : deleteItem k t ≠ nil := by
    intro hnil
    rw [hnil, inorder] at hdel
    have h0 : nodes t = 0 := by rw [nodes_eq_length, ← hdel, List.length_nil]
    exact hne (eq_nil_of_nodes_eq_zero h0)
  obtain ⟨t', h1, _, _, h3⟩ := deleteNode_spec k t h hne'
  have hsame : inorder t' = inorder t := by
    rw [h3, List.erase_of_not_mem hmem]
  refine ⟨t', h1, ?_, ?_⟩
  · rw [treeNodeCount_eq_length, treeNodeCount_eq_length, hsame]
  · rw [in_order_eq_inorder, in_order_eq_inorder, hsame]

/-- Witness for C13: `'z'` is deleted from `sixKeys`, which does not hold it. -/
theorem deleteNode_absent_key_keeps_content_witness :
    isBST sixKeys ∧ sixKeys ≠ nil ∧ ¬ holds 122 sixKeys ∧
      ∃ t', deleteNode 122 sixKeys = some t' ∧
        treeNodeCount t' = treeNodeCount sixKeys ∧ in_order t' = in_order sixKeys :=
  ⟨by decide, by decide, by decide,
    deleteNode_absent_key_keeps_content 122 sixKeys (by decide) (by decide) (by decide)⟩

/-- C14 fails on the code: `sevenKeys` does not hold `'z'` and `deleteItem`
leaves it as it is, but `deleteNode('z')` still runs `balanceTree` on the root,
which has balance factor `-2`, and leaves `sevenKeysRotated`.  The second
`deleteNode('a')` of `main` does the same to `alphabetMinusA`: it rotates the
root back, to the tree `deleteItem('a')` alone makes of `alphabetTree`. -/
theorem deleteNode_absent_key_rotates_root :
    runCalls (insertCalls [97, 98, 99, 100, 101, 102, 103]) nil = some sevenKeys ∧
      ¬ holds 122 sevenKeys ∧ deleteItem 122 sevenKeys = sevenKeys ∧
      deleteNode 122 sevenKeys = some sevenKeysRotated ∧ sevenKeysRotated ≠ sevenKeys ∧
      ¬ holds 97 alphabetMinusA ∧
      deleteNode 97 alphabetMinusA = some (deleteItem 97 alphabetTree) ∧
      deleteItem 97 alphabetTree ≠ alphabetMinusA := by
  set_option maxRecDepth 20000 in decide

/-- C15: for every list of keys inserted one at a time with `insertNode` into
the empty tree, every call returns and `treeNodeCount()` of the result is the
number of distinct keys of the list; for `'a'..'z'` it is 26. -/
theorem treeNodeCount_counts_distinct_keys (keys : List elemType) :
    (∃ t, runCalls (insertCalls keys) nil = some t ∧ treeNodeCount t = keys.dedup.length) ∧
      ∃ t, runCalls (insertCalls alphabet) nil = some t ∧ treeNodeCount t = 26 := by
  have general : ∀ ks : List elemType,
      ∃ t, runCalls (insertCalls ks) nil = some t ∧ treeNodeCount t = ks.dedup.length := by
    intro ks
    obtain ⟨t, h1, hb, hm⟩ := runCalls_insertCalls ks nil trivial
    refine ⟨t, h1, ?_⟩
    have hperm : (inorder t).Perm ks.dedup := by
      rw [List.perm_ext_iff_of_nodup ((isBST_iff t).1 hb).nodup (List.nodup_dedup ks)]
      intro x
      rw [hm x, List.mem_dedup]
      simp [inorder]
    rw [treeNodeCount_eq_length, hperm.length_eq]
  refine ⟨general keys, ?_⟩
  obtain ⟨t, h1, h2⟩ := general alphabet
  refine ⟨t, h1, ?_⟩
  rw [h2]
  decide

/-- C16 fails on the code: after `'a'..'z'` are inserted in ascending order,
`height()` returns 25, the number of nodes minus one; the longest path of the
tree built has 5 edges. -/
theorem scenarioA_height_is_25 :
    runCalls (insertCalls alphabet) nil = some alphabetTree ∧
      height alphabetTree = 25 ∧ textbookHeight alphabetTree = 5 := by
  refine ⟨runCalls_alphabet, ?_, ?_⟩ <;>
    (set_option maxRecDepth 20000 in decide)

/-- C17 fails on the code: in the tree built from `'a'..'z'` the nodes `'e'`,
`'h'`, `'s'` and `'v'` have `node_balance` 2, 3, -2 and -2. -/
theorem scenarioA_balance_factors_out_of_range :
    runCalls (insertCalls alphabet) nil = some alphabetTree ∧
      node_balance (subtreeAt 101 alphabetTree) = some 2 ∧
      node_balance (subtreeAt 104 alphabetTree) = some 3 ∧
      node_balance (subtreeAt 115 alphabetTree) = some (-2) ∧
      node_balance (subtreeAt 118 alphabetTree) = some (-2) ∧
      ¬ allBalanced alphabetTree := by
  refine ⟨runCalls_alphabet, ?_, ?_, ?_, ?_, ?_⟩ <;>
    (set_option maxRecDepth 20000 in decide)

/-- C18 fails on the code: `deleteNode('a')` on the tree built from `'a'..'z'`
leaves `alphabetMinusA`, whose root `'s'` has `node_balance` 10 and whose nodes
`'m'`, `'h'` and `'v'` have 6, 2 and -2. -/
theorem scenarioB_balance_factors_out_of_range :
    runCalls (insertCalls alphabet) nil = some alphabetTree ∧
      deleteNode 97 alphabetTree = some alphabetMinusA ∧
      node_balance (subtreeAt 115 alphabetMinusA) = some 10 ∧
      node_balance (subtreeAt 109 alphabetMinusA) = some 6 ∧
      node_balance (subtreeAt 104 alphabetMinusA) = some 2 ∧
      node_balance (subtreeAt 118 alphabetMinusA) = some (-2) ∧
      ¬ allBalanced alphabetMinusA := by
  refine ⟨runCalls_alphabet, ?_, ?_, ?_, ?_, ?_, ?_⟩ <;>
    (set_option maxRecDepth 20000 in decide)

/-- C19 fails on the code: for every node `((A, x, B), y, C)` with
`node_balance` 2 whose left child has `node_balance` 0, `balanceTree` takes the
`else` branch of `node_balance(node->left) > 0` and returns the double rotation
`((A, x, B1), z, (B2, y, C))`, where `B = (B1, z, B2)`, and not `(A, x, (B, y, C))`. -/
theorem balanceTree_tie_selects_double_rotation (A : TreeNode) (x : elemType) (B : TreeNode)
    (y : elemType) (C : TreeNode)
    (h2 : node_balance (node (node A x B) y C) = some 2)
    (h0 : node_balance (node A x B) = some 0) :
    ∃ B1 z B2, B = node B1 z B2 ∧
      balanceTree (node (node A x B) y C) = some (node (node A x B1) z (node B2 y C)) ∧
      balanceTree (node (node A x B) y C) ≠ some (node A x (node B y C)) := by
  simp only [node_balance, node_height, height_eq_nodes, Option.some.injEq, nodes] at h2 h0
  cases B with
  | nil =>
    exfalso
    simp only [nodes] at h2 h0
    omega
  | node B1 z B2 =>
    simp only [nodes] at h2 h0
    have hbal : balanceTree (node (node A x (node B1 z B2)) y C)
        = some (node (node A x B1) z (node B2 y C)) := by
      simp only [balanceTree, node_balance, node_height, height_eq_nodes, Option.some_bind,
        Option.bind_eq_bind, nodes]
      rw [if_pos (by omega), if_neg (by omega)]
      rfl
    refine ⟨B1, z, B2, rfl, hbal, ?_⟩
    rw [hbal]
    intro heq
    have hA : node A x B1 = A := by injection (Option.some.inj heq)
    have hn := congrArg nodes hA
    simp only [nodes] at hn
    omega

/-- Witness for C19: `tieNode`, the node `'g'` with children `(d, e, f)` and `h`. -/
theorem balanceTree_tie_selects_double_rotation_witness :
    node_balance tieNode = some 2 ∧ node_balance (node (leaf 100) 101 (leaf 102)) = some 0 ∧
      ∃ B1 z B2, leaf 102 = node B1 z B2 ∧
        balanceTree (node (node (leaf 100) 101 (leaf 102)) 103 (leaf 104))
          = some (node (node (leaf 100) 101 B1) z (node B2 103 (leaf 104))) ∧
        balanceTree (node (node (leaf 100) 101 (leaf 102)) 103 (leaf 104))
          ≠ some (node (leaf 100) 101 (node (leaf 102) 103 (leaf 104))) :=
  ⟨by decide, by decide,
    balanceTree_tie_selects_double_rotation (leaf 100) 101 (leaf 102) 103 (leaf 104)
      (by decide) (by decide)⟩

/-- C20 fails on the code: `sevenKeys` is what `insertNode` builds from
`'a'..'g'`; the descent to `'d'` visits `'c'`, `'e'`, `'d'`, and after
`deleteNode('d')` the node `'e'` has balance factor `-2`, because only the root
is rebalanced.  After `deleteNode('e')` the same node, now holding `'d'`, has
balance factor `-2` as well. -/
theorem scenarioD_path_node_unbalanced :
    runCalls (insertCalls [97, 98, 99, 100, 101, 102, 103]) nil = some sevenKeys ∧
      pathKeys 100 sevenKeys = [99, 101, 100] ∧
      deleteNode 100 sevenKeys = some sevenKeysMinusD ∧
      subtreeAt 101 sevenKeysMinusD = node nil 101 (node nil 102 (leaf 103)) ∧
      node_balance (subtreeAt 101 sevenKeysMinusD) = some (-2) ∧
      pathKeys 101 sevenKeys = [99, 101] ∧
      deleteNode 101 sevenKeys
        = some (node (node (leaf 97) 98 nil) 99 (node nil 100 (node nil 102 (leaf 103)))) ∧
      node_balance (node nil 100 (node nil 102 (leaf 103))) = some (-2) := by
  decide

/-! The pre-order, post-order and level-order loops. -/

theorem flatMap_pushIfPresent {β : Type} (f : TreeNode → List β) (hf : f nil = [])
    (p : TreeNode) (s : List TreeNode) :
    (pushIfPresent p s).flatMap f = f p ++ s.flatMap f := by
  cases p with
  | nil => simp [pushIfPresent, hf]
  | node l d r => simp [pushIfPresent]

theorem pre_orderLoop_eq (fuel : Nat) : ∀ (stack : List TreeNode) (out : List elemType),
    (∀ t ∈ stack, t ≠ nil) → stackNodes stack ≤ fuel →
    pre_orderLoop fuel stack out = out ++ stack.flatMap preorder := by
  induction fuel with
  | zero =>
    intro stack out hs hf
    cases stack with
    | nil => simp [pre_orderLoop]
    | cons t s =>
      have := nodes_pos_of_ne_nil (hs t (List.mem_cons_self _ _))
      rw [stackNodes_cons] at hf
      omega
  | succ fuel ih =>
    intro stack out hs hf
    cases stack with
    | nil => simp [pre_orderLoop]
    | cons t s =>
      cases t with
      | nil => exact absurd rfl (hs nil (List.mem_cons_self _ _))
      | node l d r =>
        have hs' : ∀ t ∈ s, t ≠ nil := fun t ht => hs t (List.mem_cons_of_mem _ ht)
        rw [stackNodes_cons] at hf
        simp only [nodes] at hf
        rw [pre_orderLoop, ih _ _ (pushIfPresent_ne_nil _ _ (pushIfPresent_ne_nil _ _ hs'))]
        · rw [flatMap_pushIfPresent preorder rfl, flatMap_pushIfPresent preorder rfl]
          simp [preorder]
        · rw [stackNodes_pushIfPresent, stackNodes_pushIfPresent]
          omega

theorem pushIfPresent_nil_stack (t : TreeNode) (h : t ≠ nil) : pushIfPresent t [] = [t] := by
  cases t with
  | nil => exact absurd rfl h
  | node l d r => rfl

/-- The loop of `pre_order` terminates within its fuel and prints the keys in
node-left-right order. -/
theorem pre_order_eq_preorder (t : TreeNode) : pre_order t = preorder t := by
  cases t with
  | nil => rfl
  | node l d r =>
    rw [pre_order, pre_orderLoop_eq _ _ _ (by simp) (by simp [stackNodes])]
    simp

theorem post_orderLoop_eq (fuel : Nat) : ∀ (stack1 stack2 : List TreeNode),
    (∀ t ∈ stack1, t ≠ nil) → stackNodes stack1 ≤ fuel →
    post_orderLoop fuel stack1 stack2 = (stack1.flatMap visitOrder).reverse ++ stack2 := by
  induction fuel with
  | zero =>
    intro stack1 stack2 hs hf
    cases stack1 with
    | nil => simp [post_orderLoop]
    | cons t s =>
      have := nodes_pos_of_ne_nil (hs t (List.mem_cons_self _ _))
      rw [stackNodes_cons] at hf
      omega
  | succ fuel ih =>
    intro stack1 stack2 hs hf
    cases stack1 with
    | nil => simp [post_orderLoop]
    | cons t s =>
      cases t with
      | nil => exact absurd rfl (hs nil (List.mem_cons_self _ _))
      | node l d r =>
        have hs' : ∀ t ∈ s, t ≠ nil := fun t ht => hs t (List.mem_cons_of_mem _ ht)
        rw [stackNodes_cons] at hf
        simp only [nodes] at hf
        rw [post_orderLoop, ih _ _ (pushIfPresent_ne_nil _ _ (pushIfPresent_ne_nil _ _ hs'))]
        · rw [flatMap_pushIfPresent visitOrder rfl, flatMap_pushIfPresent visitOrder rfl]
          simp [visitOrder]
        · rw [stackNodes_pushIfPresent, stackNodes_pushIfPresent]
          omega

theorem printStack_eq (stack2 : List TreeNode) : ∀ out : List elemType,
    printStack stack2 out = out ++ rootKeys stack2 := by
  induction stack2 with
  | nil => intro out; simp [printStack, rootKeys]
  | cons t s ih =>
    intro out
    cases t with
    | nil => rw [printStack, ih, rootKeys]
    | node l d r => rw [printStack, ih, rootKeys]; simp

theorem rootKeys_append (s1 s2 : List TreeNode) :
    rootKeys (s1 ++ s2) = rootKeys s1 ++ rootKeys s2 := by
  induction s1 with
  | nil => rfl
  | cons t s ih =>
    cases t with
    | nil => simpa [rootKeys] using ih
    | node l d r => simp [rootKeys, ih]

theorem rootKeys_reverse_visitOrder (t : TreeNode) :
    rootKeys (visitOrder t).reverse = postorder t := by
  induction t with
  | nil => rfl
  | node l d r ihl ihr =>
    simp [visitOrder, postorder, rootKeys_append, ihl, ihr, rootKeys]

/-- The two loops of `post_order` terminate and print the keys in
left-right-node order. -/
theorem post_order_eq_postorder (t : TreeNode) : post_order t = postorder t := by
  cases t with
  | nil => rfl
  | node l d r =>
    rw [post_order, post_orderLoop_eq _ _ _ (by simp) (by simp [stackNodes]), printStack_eq]
    simp only [List.flatMap_cons, List.flatMap_nil, List.append_nil, List.nil_append]
    exact rootKeys_reverse_visitOrder (node l d r)

theorem stackNodes_append (s1 s2 : List TreeNode) :
    stackNodes (s1 ++ s2) = stackNodes s1 + stackNodes s2 := by
  simp [stackNodes]

theorem enqueueIfPresent_eq (p : TreeNode) (q : List TreeNode) :
    enqueueIfPresent p q = q ++ pushIfPresent p [] := by
  cases p <;> simp [enqueueIfPresent, pushIfPresent]

theorem enqueue_children (l : TreeNode) (d : elemType) (r : TreeNode) (q : List TreeNode) :
    enqueueIfPresent r (enqueueIfPresent l q) = q ++ kids [node l d r] := by
  simp only [kids, List.append_nil]
  rw [enqueueIfPresent_eq r, enqueueIfPresent_eq l, enqueueIfPresent_eq r, enqueueIfPresent_eq l]
  simp

theorem kids_single (l : TreeNode) (d : elemType) (r : TreeNode) :
    kids [node l d r] = pushIfPresent l [] ++ pushIfPresent r [] := by
  simp only [kids, List.append_nil]
  rw [enqueueIfPresent_eq r, enqueueIfPresent_eq l]
  simp

theorem kids_cons (t : TreeNode) (q : List TreeNode) : kids (t :: q) = kids [t] ++ kids q := by
  cases t <;> simp [kids]

theorem kids_append (A B : List TreeNode) : kids (A ++ B) = kids A ++ kids B := by
  induction A with
  | nil => rfl
  | cons t A ih => rw [List.cons_append, kids_cons, ih, kids_cons t A, List.append_assoc]

theorem levelAt_append (n : Nat) (A B : List TreeNode) :
    levelAt n (A ++ B) = levelAt n A ++ levelAt n B := by
  simp [levelAt]

theorem levelKeys_nil (n : Nat) : levelKeys n nil = [] := by
  cases n <;> rfl

theorem levelAt_pushIfPresent (n : Nat) (p : TreeNode) :
    levelAt n (pushIfPresent p []) = levelKeys n p := by
  cases p with
  | nil => simp [pushIfPresent, levelAt, levelKeys_nil]
  | node l d r => simp [pushIfPresent, levelAt]

theorem levelAt_succ (n : Nat) (A : List TreeNode) : levelAt (n + 1) A = levelAt n (kids A) := by
  induction A with
  | nil => rfl
  | cons t A ih =>
    rw [kids_cons, levelAt_append, ← ih]
    cases t with
    | nil => simp [levelAt, kids, levelKeys]
    | node l d r =>
      rw [kids_single, levelAt_append, levelAt_pushIfPresent, levelAt_pushIfPresent]
      simp [levelAt, levelKeys]

theorem levelsUpTo_succ (N : Nat) (A : List TreeNode) :
    levelsUpTo (N + 1) A = levelsUpTo N A ++ levelAt N A := by
  simp [levelsUpTo, List.range_succ]

theorem levelsUpTo_nil (N : Nat) : levelsUpTo N [] = [] := by
  simp [levelsUpTo, levelAt]

/-- Moving the front part `A` of a queue behind `B`, with the children of `A`
in its place, shifts the keys of `A` by one level. -/
theorem levelsUpTo_rotate (N : Nat) : ∀ A B : List TreeNode,
    levelsUpTo N (A ++ B) ++ levelAt N A = levelAt 0 A ++ levelsUpTo N (B ++ kids A) := by
  induction N with
  | zero => intro A B; simp [levelsUpTo]
  | succ N ih =>
    intro A B
    rw [levelsUpTo_succ, levelsUpTo_succ, ← List.append_assoc (levelAt 0 A), ← ih A B,
      levelAt_append, levelAt_append, levelAt_succ N A]
    simp only [List.append_assoc]

theorem levelKeys_of_depth_le (t : TreeNode) : ∀ n : Nat, depth t ≤ n → levelKeys n t = [] := by
  induction t with
  | nil => intro n _; exact levelKeys_nil n
  | node l d r ihl ihr =>
    intro n hn
    simp only [depth] at hn
    cases n with
    | zero => omega
    | succ n =>
      rw [levelKeys, ihl n (by omega), ihr n (by omega)]
      rfl

theorem depth_pushIfPresent (p : TreeNode) (N : Nat) (h : depth p ≤ N) :
    ∀ t ∈ pushIfPresent p [], depth t ≤ N := by
  cases p with
  | nil => simp [pushIfPresent]
  | node l d r =>
    intro t ht
    simp only [pushIfPresent, List.mem_singleton] at ht
    rw [ht]
    exact h

theorem level_orderLoop_eq (fuel : Nat) :
    ∀ (queue : List TreeNode) (out : List elemType) (N : Nat),
    (∀ t ∈ queue, t ≠ nil) → stackNodes queue ≤ fuel → (∀ t ∈ queue, depth t ≤ N) →
    level_orderLoop fuel queue out = out ++ levelsUpTo N queue := by
  induction fuel with
  | zero =>
    intro queue out N hs hf _
    cases queue with
    | nil => simp [level_orderLoop, levelsUpTo_nil]
    | cons t s =>
      have := nodes_pos_of_ne_nil (hs t (List.mem_cons_self _ _))
      rw [stackNodes_cons] at hf
      omega
  | succ fuel ih =>
    intro queue out N hs hf hd
    cases queue with
    | nil => simp [level_orderLoop, levelsUpTo_nil]
    | cons t s =>
      cases t with
      | nil => exact absurd rfl (hs nil (List.mem_cons_self _ _))
      | node l d r =>
        have hs' : ∀ t ∈ s, t ≠ nil := fun t ht => hs t (List.mem_cons_of_mem _ ht)
        have hdt : depth (node l d r) ≤ N := hd _ (List.mem_cons_self _ _)
        have hd' : ∀ t ∈ s, depth t ≤ N := fun t ht => hd t (List.mem_cons_of_mem _ ht)
        rw [stackNodes_cons] at hf
        simp only [nodes] at hf
        rw [level_orderLoop, enqueue_children l d r s]
        have hshift := levelsUpTo_rotate N [node l d r] s
        rw [levelAt, List.flatMap_singleton, levelKeys_of_depth_le _ N hdt, List.append_nil,
          levelAt, List.flatMap_singleton, levelKeys, List.singleton_append] at hshift
        rw [ih (s ++ kids [node l d r]) (out ++ [d]) N]
        · rw [hshift]; simp
        · intro t ht
          rw [kids_single, List.mem_append, List.mem_append] at ht
          rcases ht with ht | ht | ht
          · exact hs' t ht
          · exact pushIfPresent_ne_nil l [] (by simp) t ht
          · exact pushIfPresent_ne_nil r [] (by simp) t ht
        · rw [stackNodes_append, kids_single, stackNodes_append, stackNodes_pushIfPresent,
            stackNodes_pushIfPresent]
          simp only [stackNodes, List.map_nil, List.sum_nil] at hf ⊢
          omega
        · intro t ht
          simp only [depth] at hdt
          rw [kids_single, List.mem_append, List.mem_append] at ht
          rcases ht with ht | ht | ht
          · exact hd' t ht
          · exact depth_pushIfPresent l N (by omega) t ht
          · exact depth_pushIfPresent r N (by omega) t ht

/-- The loop of `level_order` terminates within its fuel and prints the keys
depth by depth, left to right within each depth. -/
theorem level_order_eq_levelsByDepth (t : TreeNode) : level_order t = levelsByDepth t := by
  cases t with
  | nil => rfl
  | node l d r =>
    rw [level_order, level_orderLoop_eq _ _ _ (depth (node l d r)) (by simp)
      (by simp [stackNodes]) (by simp)]
    simp [levelsUpTo, levelsByDepth, levelAt]

theorem preorder_perm_inorder (t : TreeNode) : (preorder t).Perm (inorder t) := by
  induction t with
  | nil => exact List.Perm.refl _
  | node l d r ihl ihr =>
    rw [preorder, inorder]
    exact (List.Perm.cons d (ihl.append ihr)).trans List.perm_middle.symm

theorem postorder_perm_inorder (t : TreeNode) : (postorder t).Perm (inorder t) := by
  induction t with
  | nil => exact List.Perm.refl _
  | node l d r ihl ihr =>
    rw [postorder, inorder]
    refine List.Perm.append ihl ?_
    exact (List.perm_append_comm).trans (List.Perm.cons d ihr)

theorem inorder_pushIfPresent (p : TreeNode) :
    (pushIfPresent p []).flatMap inorder = inorder p := by
  rw [flatMap_pushIfPresent inorder rfl]
  simp

theorem count_level_orderLoop (k : elemType) (fuel : Nat) :
    ∀ (queue : List TreeNode) (out : List elemType),
    (∀ t ∈ queue, t ≠ nil) → stackNodes queue ≤ fuel →
    (level_orderLoop fuel queue out).count k
      = out.count k + (queue.flatMap inorder).count k := by
  induction fuel with
  | zero =>
    intro queue out hs hf
    cases queue with
    | nil => simp [level_orderLoop]
    | cons t s =>
      have := nodes_pos_of_ne_nil (hs t (List.mem_cons_self _ _))
      rw [stackNodes_cons] at hf
      omega
  | succ fuel ih =>
    intro queue out hs hf
    cases queue with
    | nil => simp [level_orderLoop]
    | cons t s =>
      cases t with
      | nil => exact absurd rfl (hs nil (List.mem_cons_self _ _))
      | node l d r =>
        have hs' : ∀ t ∈ s, t ≠ nil := fun t ht => hs t (List.mem_cons_of_mem _ ht)
        rw [stackNodes_cons] at hf
        simp only [nodes] at hf
        rw [level_orderLoop, enqueue_children l d r s, ih (s ++ kids [node l d r]) (out ++ [d])]
        · rw [kids_single]
          simp only [List.flatMap_append, List.flatMap_cons, inorder_pushIfPresent, inorder,
            List.count_append, List.count_cons, List.count_nil]
          omega
        · intro t ht
          rw [kids_single, List.mem_append, List.mem_append] at ht
          rcases ht with ht | ht | ht
          · exact hs' t ht
          · exact pushIfPresent_ne_nil l [] (by simp) t ht
          · exact pushIfPresent_ne_nil r [] (by simp) t ht
        · rw [stackNodes_append, kids_single, stackNodes_append, stackNodes_pushIfPresent,
            stackNodes_pushIfPresent]
          simp only [stackNodes, List.map_nil, List.sum_nil] at hf ⊢
          omega

theorem level_order_perm_inorder (t : TreeNode) : (level_order t).Perm (inorder t) := by
  cases t with
  | nil => exact List.Perm.refl _
  | node l d r =>
    rw [List.perm_iff_count]
    intro k
    rw [level_order, count_level_orderLoop k _ _ _ (by simp) (by simp [stackNodes])]
    simp

theorem stackNodes_pushIfPresent_nil (t : TreeNode) : stackNodes (pushIfPresent t []) = nodes t := by
  rw [stackNodes_pushIfPresent]
  simp [stackNodes]

theorem L_rotate_eq_rotateRight (t : TreeNode) : L_rotate t = rotateRight t := by
  cases t with
  | nil => rfl
  | node l d r => cases l <;> rfl

theorem R_rotate_eq_rotateLeft (t : TreeNode) : R_rotate t = rotateLeft t := by
  cases t with
  | nil => rfl
  | node l d r => cases r <;> rfl

theorem LR_rotate_eq_rotateLeftRight (t : TreeNode) : LR_rotate t = rotateLeftRight t := by
  cases t with
  | nil => rfl
  | node l d r =>
    simp only [LR_rotate, rotateLeftRight, R_rotate_eq_rotateLeft, L_rotate_eq_rotateRight,
      Option.bind_eq_bind]

theorem RL_rotate_eq_rotateRightLeft (t : TreeNode) : RL_rotate t = rotateRightLeft t := by
  cases t with
  | nil => rfl
  | node l d r =>
    simp only [RL_rotate, rotateRightLeft, L_rotate_eq_rotateRight, R_rotate_eq_rotateLeft,
      Option.bind_eq_bind]

theorem keepsOrder_of_inorder (t' : TreeNode) {t : TreeNode} {result : Option TreeNode}
    (hr : result = some t') (hi : inorder t' = inorder t) : keepsOrder t result := by
  refine ⟨t', hr, ?_, ?_⟩
  · rw [in_order_eq_inorder, in_order_eq_inorder, hi]
  · intro hb
    rw [isBST_iff, hi, ← isBST_iff]
    exact hb

theorem nodes_balanceTree {t t' : TreeNode} (h : balanceTree t = some t') :
    nodes t' = nodes t := by
  have hne : t ≠ nil := by
    intro hnil
    rw [hnil, balanceTree_nil] at h
    exact Option.noConfusion h
  obtain ⟨u, hu, _, hi⟩ := balanceTree_of_ne_nil hne
  rw [hu] at h
  have htu : u = t' := Option.some.inj h
  rw [← htu, nodes_eq_length, nodes_eq_length, hi]

/-! Height, size, rotations, traversals and the rebalance policy. -/

/-- C21 fails on the code: on `threeKeys`, a root with two leaves built by
`insertNode` from `b, a, c`, `height()` returns 2, the number of nodes minus
one; the longest path from the root to a leaf has 1 edge, and 2 is not
`1 + max(height(left), height(right))`. -/
theorem height_is_not_max_depth :
    runCalls (insertCalls [98, 97, 99]) nil = some threeKeys ∧
      height threeKeys = 2 ∧ textbookHeight threeKeys = 1 ∧
      height threeKeys ≠ 1 + max (height (leaf 97)) (height (leaf 99)) := by
  decide

/-- C22: `height()` returns -1 for the empty tree and 0 for a single node, and
`node_balance` of a present node is `height(left) - height(right)`. -/
theorem height_convention (l : TreeNode) (d : elemType) (r : TreeNode) :
    height nil = -1 ∧ height (leaf d) = 0 ∧
      node_balance (node l d r) = some (height l - height r) := by
  refine ⟨rfl, ?_, rfl⟩
  rw [height_eq_nodes]
  simp [leaf, nodes]

/-- C23: the loop of `size` empties its stack within any fuel that is at least
the number of nodes, and `treeNodeCount()` is the number of nodes: 0 for the
empty tree, `1 + size(left) + size(right)` otherwise. -/
theorem treeNodeCount_counts_all_nodes (t : TreeNode) (extra : Nat) :
    treeNodeCount t = nodes t ∧
      sizeLoop (nodes t + extra) (pushIfPresent t []) 0 = nodes t ∧
      size nil = 0 ∧
      ∀ (l : TreeNode) (d : elemType) (r : TreeNode), size (node l d r) = 1 + size l + size r := by
  refine ⟨size_eq_nodes t, ?_, rfl, ?_⟩
  · rw [sizeLoop_eq _ _ _ (pushIfPresent_ne_nil t [] (by simp))
      (by rw [stackNodes_pushIfPresent_nil]; omega), stackNodes_pushIfPresent_nil]
    simp
  · intro l d r
    rw [size_eq_nodes, size_eq_nodes, size_eq_nodes]
    simp only [nodes]
    push_cast
    ring

/-- C24: each of `R_rotate`, `L_rotate`, `LR_rotate` and `RL_rotate`, on a
tree whose pivot child (and, for the double rotations, inner pivot) is present,
returns a tree with the in-order key sequence of its argument, and a BST when
its argument is one. -/
theorem rotations_keep_in_order (a b c e : TreeNode) (x y z : elemType) :
    keepsOrder (node a x (node b y c)) (R_rotate (node a x (node b y c))) ∧
      keepsOrder (node (node a x b) y c) (L_rotate (node (node a x b) y c)) ∧
      keepsOrder (node (node a x (node b y c)) z e)
        (LR_rotate (node (node a x (node b y c)) z e)) ∧
      keepsOrder (node a x (node (node b y c) z e))
        (RL_rotate (node a x (node (node b y c) z e))) := by
  refine ⟨?_, ?_, ?_, ?_⟩
  · exact keepsOrder_of_inorder (node (node a x b) y c) rfl (by simp [inorder])
  · exact keepsOrder_of_inorder (node a x (node b y c)) rfl (by simp [inorder])
  · exact keepsOrder_of_inorder (node (node a x b) y (node c z e)) rfl
      (by simp [inorder])
  · exact keepsOrder_of_inorder (node (node a x b) y (node c z e)) rfl
      (by simp [inorder])

/-- C25 fails on the code: whatever `balanceTree` does to a node, `height()`
of the subtree it returns equals `height()` of its argument, because the value
is the number of nodes minus one; it never drops by one. -/
theorem balanceTree_keeps_height (t t' : TreeNode) (h : balanceTree t = some t') :
    height t' = height t := by
  rw [height_eq_nodes, height_eq_nodes, nodes_balanceTree h]

/-- Witness for C25: on `leftChain`, `balanceTree` applies the single rotation
`L_rotate`; `height()` is 2 before and after, while the longest path drops
from 2 edges to 1. -/
theorem balanceTree_keeps_height_witness :
    balanceTree leftChain = some threeKeys ∧ L_rotate leftChain = some threeKeys ∧
      height leftChain = 2 ∧ textbookHeight leftChain = 2 ∧ textbookHeight threeKeys = 1 ∧
      height threeKeys = height leftChain :=
  ⟨by decide, by decide, by decide, by decide, by decide,
    balanceTree_keeps_height leftChain threeKeys (by decide)⟩

/-- C26: the loop of `pre_order` empties its stack within any fuel that is at
least the number of nodes, and prints the recursive pre-order sequence (node,
left subtree, right subtree), which lists the key of every node once. -/
theorem pre_order_is_recursive_preorder (t : TreeNode) (extra : Nat) :
    pre_order t = preorder t ∧
      pre_orderLoop (nodes t + extra) (pushIfPresent t []) [] = preorder t ∧
      (pre_order t).Perm (inorder t) := by
  refine ⟨pre_order_eq_preorder t, ?_, ?_⟩
  · rw [pre_orderLoop_eq _ _ _ (pushIfPresent_ne_nil t [] (by simp))
      (by rw [stackNodes_pushIfPresent_nil]; omega), flatMap_pushIfPresent preorder rfl]
    simp
  · rw [pre_order_eq_preorder]
    exact preorder_perm_inorder t

/-- C27: the loop of `in_order` finishes within any fuel that is at least the
number of nodes, and prints the recursive in-order sequence (left subtree,
node, right subtree), which lists the key of every node once. -/
theorem in_order_is_recursive_inorder (t : TreeNode) (extra : Nat) :
    in_order t = inorder t ∧
      in_orderLoop (nodes t + extra) t [] [] = inorder t ∧
      (in_order t).length = nodes t := by
  refine ⟨in_order_eq_inorder t, ?_, ?_⟩
  · rw [in_orderLoop_eq _ _ _ _ (by simp) (by simp [pendingWeight])]
    simp [pendingKeys]
  · rw [in_order_eq_inorder, nodes_eq_length]

/-- C28: the first loop of `post_order` empties `stack1` within any fuel that
is at least the number of nodes, and the second loop prints the recursive
post-order sequence (left subtree, right subtree, node), which lists the key
of every node once. -/
theorem post_order_is_recursive_postorder (t : TreeNode) (extra : Nat) :
    post_order t = postorder t ∧
      printStack (post_orderLoop (nodes t + extra) (pushIfPresent t []) []) [] = postorder t ∧
      (post_order t).Perm (inorder t) := by
  refine ⟨post_order_eq_postorder t, ?_, ?_⟩
  · rw [post_orderLoop_eq _ _ _ (pushIfPresent_ne_nil t [] (by simp))
      (by rw [stackNodes_pushIfPresent_nil]; omega), printStack_eq,
      flatMap_pushIfPresent visitOrder rfl]
    simp only [List.flatMap_nil, List.append_nil, List.nil_append]
    exact rootKeys_reverse_visitOrder t
  · rw [post_order_eq_postorder]
    exact postorder_perm_inorder t

/-- C29: the loop of `level_order` empties its queue within any fuel that is
at least the number of nodes, and prints all keys at depth 0, then all keys at
depth 1, and so on, left to right within each depth; the key of every node is
printed once. -/
theorem level_order_is_breadth_first (t : TreeNode) (extra : Nat) :
    level_order t = levelsByDepth t ∧
      level_orderLoop (nodes t + extra) (pushIfPresent t []) [] = levelsByDepth t ∧
      (level_order t).Perm (inorder t) := by
  refine ⟨level_order_eq_levelsByDepth t, ?_, level_order_perm_inorder t⟩
  cases t with
  | nil => cases extra <;> rfl
  | node l d r =>
    rw [pushIfPresent, level_orderLoop_eq _ _ _ (depth (node l d r)) (by simp)
      (by simp only [stackNodes, List.map_cons, List.map_nil, List.sum_cons, List.sum_nil]; omega)
      (by simp)]
    simp [levelsUpTo, levelsByDepth, levelAt]

/-- C30: on a present node with balance factor `bf`, `balanceTree` returns,
and its result is the specification's Rotate-Right when `bf > 1` and the left
child's balance factor is `> 0`, Rotate-Left-Right when `bf > 1` and it is
`< 0`, Rotate-Left when `bf < -1` and the right child's balance factor is
`<= 0`, Rotate-Right-Left when `bf < -1` and it is `> 0`, and the node itself
when `-1 <= bf <= 1`. -/
theorem balanceTree_follows_policy (l : TreeNode) (d : elemType) (r : TreeNode) (bf : Int)
    (hbf : node_balance (node l d r) = some bf) :
    (balanceTree (node l d r)).isSome = true ∧
      (1 < bf → ∃ lb, node_balance l = some lb ∧
        (0 < lb → balanceTree (node l d r) = rotateRight (node l d r)) ∧
        (lb < 0 → balanceTree (node l d r) = rotateLeftRight (node l d r))) ∧
      (bf < -1 → ∃ rb, node_balance r = some rb ∧
        (rb ≤ 0 → balanceTree (node l d r) = rotateLeft (node l d r)) ∧
        (0 < rb → balanceTree (node l d r) = rotateRightLeft (node l d r))) ∧
      (-1 ≤ bf → bf ≤ 1 → balanceTree (node l d r) = some (node l d r)) := by
  have hsome : (balanceTree (node l d r)).isSome = true := by
    obtain ⟨t', ht', _⟩ := balanceTree_node l d r
    rw [ht']
    rfl
  have hval : node_height l - node_height r = bf := by
    simpa only [node_balance, Option.some.injEq] using hbf
  subst hval
  refine ⟨hsome, ?_, ?_, ?_⟩
  · intro h1
    cases l with
    | nil =>
      simp only [node_height, height_eq_nodes, nodes] at h1
      omega
    | node ll ld lr =>
      refine ⟨node_height ll - node_height lr, rfl, ?_, ?_⟩
      · intro hlb
        simp only [balanceTree, Option.some_bind, Option.bind_eq_bind, node_balance]
        rw [if_pos h1, if_pos hlb]
        exact L_rotate_eq_rotateRight _
      · intro hlb
        simp only [balanceTree, Option.some_bind, Option.bind_eq_bind, node_balance]
        rw [if_pos h1, if_neg (by omega)]
        exact LR_rotate_eq_rotateLeftRight _
  · intro h1
    cases r with
    | nil =>
      simp only [node_height, height_eq_nodes, nodes] at h1
      omega
    | node rl rd rr =>
      refine ⟨node_height rl - node_height rr, rfl, ?_, ?_⟩
      · intro hrb
        simp only [balanceTree, Option.some_bind, Option.bind_eq_bind, node_balance]
        rw [if_neg (by omega), if_pos h1, if_neg (by omega)]
        exact R_rotate_eq_rotateLeft _
      · intro hrb
        simp only [balanceTree, Option.some_bind, Option.bind_eq_bind, node_balance]
        rw [if_neg (by omega), if_pos h1, if_pos hrb]
        exact RL_rotate_eq_rotateRightLeft _
  · intro h1 h2
    simp only [balanceTree, Option.some_bind, Option.bind_eq_bind, node_balance]
    rw [if_neg (by omega), if_neg (by omega)]

/-- Witness for C30: `leftChain` has balance factor 2 and its left child 1. -/
theorem balanceTree_follows_policy_witness :
    node_balance leftChain = some 2 ∧
      (balanceTree leftChain).isSome = true ∧
      (1 < (2 : Int) → ∃ lb, node_balance (node (leaf 97) 98 nil) = some lb ∧
        (0 < lb → balanceTree leftChain = rotateRight leftChain) ∧
        (lb < 0 → balanceTree leftChain = rotateLeftRight leftChain)) ∧
      ((2 : Int) < -1 → ∃ rb, node_balance nil = some rb ∧
        (rb ≤ 0 → balanceTree leftChain = rotateLeft leftChain) ∧
        (0 < rb → balanceTree leftChain = rotateRightLeft leftChain)) ∧
      (-1 ≤ (2 : Int) → (2 : Int) ≤ 1 → balanceTree leftChain = some leftChain) :=
  ⟨by decide, balanceTree_follows_policy (node (leaf 97) 98 nil) 99 nil 2 (by decide)⟩

/-! Rotation preconditions, the rotations by name, two-child deletion, the
reference insertion and the second implementation. -/

theorem R_rotate_2_eq_rotateRight (t : TreeNode) : R_rotate_2 t = rotateRight t := by
  cases t with
  | nil => rfl
  | node l d r => cases l <;> rfl

theorem L_rotate_2_eq_rotateLeft (t : TreeNode) : L_rotate_2 t = rotateLeft t := by
  cases t with
  | nil => rfl
  | node l d r => cases r <;> rfl

theorem LR_rotate_2_eq_rotateLeftRight (t : TreeNode) : LR_rotate_2 t = rotateLeftRight t := by
  cases t with
  | nil => rfl
  | node l d r =>
    simp only [LR_rotate_2, rotateLeftRight, L_rotate_2_eq_rotateLeft, R_rotate_2_eq_rotateRight,
      Option.bind_eq_bind]

theorem RL_rotate_2_eq_rotateRightLeft (t : TreeNode) : RL_rotate_2 t = rotateRightLeft t := by
  cases t with
  | nil => rfl
  | node l d r =>
    simp only [RL_rotate_2, rotateRightLeft, L_rotate_2_eq_rotateLeft, R_rotate_2_eq_rotateRight,
      Option.bind_eq_bind]

/-- In the tie the two files differ: on `tieNode` the first applies the double
rotation and the second the single one. -/
theorem balanceTree_2_differs_on_tie :
    balanceTree tieNode = some (node (node (leaf 100) 101 nil) 102 (node nil 103 (leaf 104))) ∧
      balanceTree_2 tieNode = some (node (leaf 100) 101 (node (leaf 102) 103 (leaf 104))) := by
  decide

theorem deleteItem_replaceAt (k : elemType) (t : TreeNode) :
    deleteItem k t = replaceAt k (deleteItem k (subtreeAt k t)) t := by
  induction t with
  | nil => rfl
  | node l d r ihl ihr =>
    by_cases h0 : k = d
    · rw [subtreeAt, if_pos h0, replaceAt, if_pos h0]
    · have h0' : d ≠ k := fun h => h0 h.symm
      rw [subtreeAt, if_neg h0, replaceAt, if_neg h0, deleteItem.eq_def]
      simp only
      rw [if_pos h0']
      by_cases h1 : k < d
      · rw [if_pos h1, if_pos h1, if_pos h1, ← ihl]
      · rw [if_neg h1, if_neg h1, if_neg h1, ← ihr]

theorem unlinkReplacement_eq_spliceRightmost (r : TreeNode) : ∀ (l : TreeNode) (d : elemType),
    unlinkReplacement l d r = spliceRightmost (node l d r) ∧
      some (replacementData l d r) = rightmostKey (node l d r) := by
  induction r with
  | nil => intro l d; exact ⟨rfl, rfl⟩
  | node rl rd rr _ ih =>
    intro l d
    obtain ⟨h1, h2⟩ := ih rl rd
    exact ⟨by rw [unlinkReplacement, spliceRightmost, h1], by rw [replacementData, rightmostKey, h2]⟩

theorem isBST_subtreeAt (k : elemType) (t : TreeNode) (h : isBST t) : isBST (subtreeAt k t) := by
  induction t with
  | nil => exact h
  | node l d r ihl ihr =>
    rw [subtreeAt]
    by_cases h0 : k = d
    · rw [if_pos h0]; exact h
    · rw [if_neg h0]
      by_cases h1 : k < d
      · rw [if_pos h1]; exact ihl h.2.2.1
      · rw [if_neg h1]; exact ihr h.2.2.2

/-- C31: on a present node `balanceTree` returns; whenever it rotates, the
pivot child it reads is present, and so is the inner pivot of `LR_rotate` and
`RL_rotate`. -/
theorem balanceTree_pivots_present (l : TreeNode) (d : elemType) (r : TreeNode) :
    (∃ t', balanceTree (node l d r) = some t') ∧
      (1 < node_height l - node_height r →
        ∃ ll ld lr, l = node ll ld lr ∧
          (¬ 0 < node_height ll - node_height lr → ∃ a x b, lr = node a x b)) ∧
      (node_height l - node_height r < -1 →
        ∃ rl rd rr, r = node rl rd rr ∧
          (0 < node_height rl - node_height rr → ∃ a x b, rl = node a x b)) := by
  refine ⟨?_, ?_, ?_⟩
  · obtain ⟨t', h, _⟩ := balanceTree_node l d r
    exact ⟨t', h⟩
  · intro h
    simp only [node_height, height_eq_nodes] at h
    cases l with
    | nil => simp only [nodes] at h; omega
    | node ll ld lr =>
      refine ⟨ll, ld, lr, rfl, ?_⟩
      intro h2
      simp only [node_height, height_eq_nodes] at h2
      cases lr with
      | nil => simp only [nodes] at h h2; omega
      | node a x b => exact ⟨a, x, b, rfl⟩
  · intro h
    simp only [node_height, height_eq_nodes] at h
    cases r with
    | nil => simp only [nodes] at h; omega
    | node rl rd rr =>
      refine ⟨rl, rd, rr, rfl, ?_⟩
      intro h2
      simp only [node_height, height_eq_nodes] at h2
      cases rl with
      | nil => simp only [nodes] at h h2; omega
      | node a x b => exact ⟨a, x, b, rfl⟩

/-- C32 fails on the code: `R_rotate` of `src/AVLtrees.cpp` pivots on
`node->right`, so it is the specification's Rotate-Left, and `L_rotate` pivots
on `node->left`, so it is Rotate-Right.  On `rightChain`, where `balanceTree`
calls it, `R_rotate` returns `threeKeys` while a rotation with
`pivot = node.left` would read a null pivot; on `threeKeys` the two rotations
return different trees. -/
theorem single_rotations_are_swapped (t : TreeNode) :
    R_rotate t = rotateLeft t ∧ L_rotate t = rotateRight t ∧
      balanceTree rightChain = R_rotate rightChain ∧
      R_rotate rightChain = some threeKeys ∧ rotateRight rightChain = none ∧
      L_rotate leftChain = some threeKeys ∧ rotateLeft leftChain = none ∧
      R_rotate threeKeys = some leftChain ∧ rotateRight threeKeys = some rightChain := by
  refine ⟨R_rotate_eq_rotateLeft t, L_rotate_eq_rotateRight t, ?_, ?_, ?_, ?_, ?_, ?_, ?_⟩ <;>
    decide

/-- C33: `LR_rotate(node)` is the specification's Rotate-Right of the node
whose left child has been replaced by the specification's Rotate-Left of that
child, and `RL_rotate(node)` is Rotate-Left of the node whose right child has
been replaced by Rotate-Right of that child; with the needed children present
both return the same tree `((a, x, b), y, (c, z, e))`. -/
theorem double_rotations_are_compositions (l : TreeNode) (d : elemType) (r : TreeNode)
    (a b c e : TreeNode) (x y z : elemType) :
    LR_rotate (node l d r) = (rotateLeft l).bind (fun l' => rotateRight (node l' d r)) ∧
      RL_rotate (node l d r) = (rotateRight r).bind (fun r' => rotateLeft (node l d r')) ∧
      LR_rotate (node (node a x (node b y c)) z e) = some (node (node a x b) y (node c z e)) ∧
      RL_rotate (node a x (node (node b y c) z e)) = some (node (node a x b) y (node c z e)) :=
  ⟨LR_rotate_eq_rotateLeftRight (node l d r), RL_rotate_eq_rotateRightLeft (node l d r),
    rfl, rfl⟩

/-- C34: in a BST, when the node holding `k` has two children `L` and `R`,
`deleteItem(k)` puts at that node's position the key `m` of the rightmost node
of `L`, which is the greatest key of `L`, keeps `R`, and replaces `L` by `L`
without its rightmost node, whose left child takes its place; the keys of the
new left subtree are those of `L` with `m` erased. -/
theorem deleteItem_two_children_uses_predecessor (k : elemType) (t L R : TreeNode)
    (h : isBST t) (hk : subtreeAt k t = node L k R) (hL : L ≠ nil) (hR : R ≠ nil) :
    ∃ m, rightmostKey L = some m ∧
      deleteItem k t = replaceAt k (node (spliceRightmost L) m R) t ∧
      m ∈ inorder L ∧ (∀ x ∈ inorder L, x ≤ m) ∧
      inorder (spliceRightmost L) = (inorder L).erase m := by
  have hbsub : isBST (node L k R) := hk ▸ isBST_subtreeAt k t h
  have hbL : isBST L := hbsub.2.2.1
  cases L with
  | nil => exact absurd rfl hL
  | node ll ld lr =>
    cases R with
    | nil => exact absurd rfl hR
    | node rl rd rr =>
      obtain ⟨hs, hm⟩ := unlinkReplacement_eq_spliceRightmost lr ll ld
      have hin := inorder_unlinkReplacement lr ll ld
      rw [hs] at hin
      have hsorted : (inorder (spliceRightmost (node ll ld lr)) ++
          [replacementData ll ld lr]).Sorted (· < ·) := by
        rw [hin]
        exact (isBST_iff _).1 hbL
      have hpw := List.pairwise_append.1 hsorted
      refine ⟨replacementData ll ld lr, hm.symm, ?_, ?_, ?_, ?_⟩
      · rw [deleteItem_replaceAt k t, hk, deleteItem.eq_def]
        simp only [ne_eq, not_true_eq_false, if_false, hs]
      · rw [← hin]
        simp
      · intro x hx
        rw [← hin, List.mem_append, List.mem_singleton] at hx
        rcases hx with hx | hx
        · exact le_of_lt (hpw.2.2 x hx _ (List.mem_singleton_self _))
        · exact le_of_eq hx
      · have hnot : replacementData ll ld lr ∉ inorder (spliceRightmost (node ll ld lr)) :=
          fun hmem => lt_irrefl _ (hpw.2.2 _ hmem _ (List.mem_singleton_self _))
        rw [← hin, List.erase_append_right _ hnot]
        simp

/-- Witness for C34: `'c'`, the root of `sevenKeys`, has the children
`b(a,-)` and `e(d,f(-,g))`. -/
theorem deleteItem_two_children_uses_predecessor_witness :
    isBST sevenKeys ∧
      subtreeAt 99 sevenKeys
        = node (node (leaf 97) 98 nil) 99 (node (leaf 100) 101 (node nil 102 (leaf 103))) ∧
      ∃ m, rightmostKey (node (leaf 97) 98 nil) = some m ∧
        deleteItem 99 sevenKeys
          = replaceAt 99 (node (spliceRightmost (node (leaf 97) 98 nil)) m
              (node (leaf 100) 101 (node nil 102 (leaf 103)))) sevenKeys ∧
        m ∈ inorder (node (leaf 97) 98 nil) ∧
        (∀ x ∈ inorder (node (leaf 97) 98 nil), x ≤ m) ∧
        inorder (spliceRightmost (node (leaf 97) 98 nil))
          = (inorder (node (leaf 97) 98 nil)).erase m :=
  ⟨by decide, by decide,
    deleteItem_two_children_uses_predecessor 99 sevenKeys (node (leaf 97) 98 nil)
      (node (leaf 100) 101 (node nil 102 (leaf 103))) (by decide) (by decide) (by decide)
      (by decide)⟩

/-- C35 fails on the code: on `sixKeys`, built by `insertNode` from `'a'..'f'`,
`insertNode('g')` balances the root twice and returns `sevenKeys`, while the
reference recursion balances it once and returns `sevenKeysRotated`; on
`sevenKeys`, `insertNode('c')` balances the equal-key root and returns
`sevenKeysRotated`, while the reference recursion returns `sevenKeys`. -/
theorem insertNode_differs_from_reference :
    runCalls (insertCalls [97, 98, 99, 100, 101, 102]) nil = some sixKeys ∧
      insertNode 103 sixKeys = some sevenKeys ∧
      insertReference 103 sixKeys = some sevenKeysRotated ∧
      runCalls (insertCalls [97, 98, 99, 100, 101, 102, 103]) nil = some sevenKeys ∧
      insertNode 99 sevenKeys = some sevenKeysRotated ∧
      insertReference 99 sevenKeys = some sevenKeys ∧
      sevenKeys ≠ sevenKeysRotated := by
  decide

/-- C36 fails on the code: `sevenKeys` is a BST with balance factor `-2` at
the root and balance factors in `{-1, 0, 1}` below it, and `balanceTree`
returns `sevenKeysRotated`, whose root has balance factor `2`;
`sevenKeysRotated` in turn has `2` at the root and `{-1, 0, 1}` below it, and
`balanceTree` returns `sevenKeys`.  These are the two calls at the root while
`insertNode('g')` runs on `sixKeys`. -/
theorem balanceTree_leaves_root_unbalanced :
    isBST sevenKeys ∧ node_balance sevenKeys = some (-2) ∧
      allBalanced (node (leaf 97) 98 nil) ∧
      allBalanced (node (leaf 100) 101 (node nil 102 (leaf 103))) ∧
      balanceTree sevenKeys = some sevenKeysRotated ∧
      isBST sevenKeysRotated ∧ node_balance sevenKeysRotated = some 2 ∧
      allBalanced (node (node (leaf 97) 98 nil) 99 (leaf 100)) ∧
      allBalanced (node nil 102 (leaf 103)) ∧
      balanceTree sevenKeysRotated = some sevenKeys := by
  decide

/-- C37: `height` as computed by its stack loop is `size` minus one, for the
empty tree as well, so `node_balance` of a present node is
`size(left) - size(right)`. -/
theorem height_is_size_minus_one (t l : TreeNode) (d : elemType) (r : TreeNode) :
    height t = size t - 1 ∧ node_balance (node l d r) = some (size l - size r) := by
  refine ⟨by rw [height_eq_nodes, size_eq_nodes], ?_⟩
  rw [node_balance, node_height, node_height, height_eq_nodes, height_eq_nodes, size_eq_nodes,
    size_eq_nodes]
  congr 1
  ring

/-- C38: on a present node that is not in the tie (balance factor above 1 with
a left child of balance factor 0), `balanceTree` of `src/AVLtrees.cpp` and
`balanceTree` of `src/AVLtrees_2.cpp` return the same tree. -/
theorem balanceTree_agrees_with_second_file (l : TreeNode) (d : elemType) (r : TreeNode)
    (h : ¬ ∃ bf, node_balance (node l d r) = some bf ∧ 1 < bf ∧ node_balance l = some 0) :
    balanceTree (node l d r) = balanceTree_2 (node l d r) := by
  simp only [balanceTree, balanceTree_2, node_balance, Option.some_bind, Option.bind_eq_bind]
  by_cases h1 : node_height l - node_height r > 1
  · rw [if_pos h1, if_pos h1]
    cases l with
    | nil => rfl
    | node ll ld lr =>
      simp only [node_balance, Option.some_bind]
      have hne : node_height ll - node_height lr ≠ 0 := by
        intro h0
        apply h
        exact ⟨_, rfl, h1, by rw [node_balance, h0]⟩
      by_cases h2 : node_height ll - node_height lr > 0
      · rw [if_pos h2, if_pos (le_of_lt h2), L_rotate_eq_rotateRight, R_rotate_2_eq_rotateRight]
      · rw [if_neg h2, if_neg (by omega), LR_rotate_eq_rotateLeftRight,
          LR_rotate_2_eq_rotateLeftRight]
  · rw [if_neg h1, if_neg h1]
    by_cases h3 : node_height l - node_height r < -1
    · rw [if_pos h3, if_pos h3]
      cases r with
      | nil => rfl
      | node rl rd rr =>
        simp only [node_balance, Option.some_bind]
        by_cases h4 : node_height rl - node_height rr > 0
        · rw [if_pos h4, if_neg (by omega), RL_rotate_eq_rotateRightLeft,
            RL_rotate_2_eq_rotateRightLeft]
        · rw [if_neg h4, if_pos (by omega), R_rotate_eq_rotateLeft, L_rotate_2_eq_rotateLeft]
    · rw [if_neg h3, if_neg h3]

/-- Witness for C38: `leftChain` has balance factor 2 and its left child 1. -/
theorem balanceTree_agrees_with_second_file_witness :
    (¬ ∃ bf, node_balance (node (node (leaf 97) 98 nil) 99 nil) = some bf ∧ 1 < bf ∧
        node_balance (node (leaf 97) 98 nil) = some 0) ∧
      balanceTree (node (node (leaf 97) 98 nil) 99 nil)
        = balanceTree_2 (node (node (leaf 97) 98 nil) 99 nil) :=
  ⟨fun ⟨_, _, _, h0⟩ => absurd h0 (by decide),
    balanceTree_agrees_with_second_file (node (leaf 97) 98 nil) 99 nil
      (fun ⟨_, _, _, h0⟩ => absurd h0 (by decide))⟩

end AVLtrees
